import Mathlib

/-!
Verification of the `scipybiteopt` optimization engine against its
specification.  The development shallowly embeds the relevant C++ components
(`biteaux.h`, `biteopt.h`, `biteopt_py_ext.cpp`) into Lean: `double` values
are modelled as exact rationals (`ℚ`), machine integers as `ℤ`/`ℕ`, and the
pseudo-random draws consumed by an operation are passed in as explicit
arguments, universally quantified in the theorems.
-/

namespace BiteOpt

/-! ## Population (`CBitePop`, biteaux.h)

A solution record is modelled as a pair of its rank (cost) and its parameter
vector.  `recs` holds the records that have actually been stored, in slot
order: during the initial fill phase its length equals `CurPopPos`; once the
population is filled it stays at `PopSize`.  Slots past `CurPopPos` of the
C++ buffer are uninitialized memory that `updatePop` never reads, so they
are not part of the model. -/

structure Pop where
  popSize : ℕ
  curPopSize : ℕ
  curPopPos : ℕ
  recs : List (ℚ × List ℚ)
deriving DecidableEq

/-- Ranks of the stored records, in slot order. -/
def Pop.ranks (st : Pop) : List ℚ :=
  st.recs.map Prod.fst

/-- Rank of the record in slot `i` (`*getRankPtr( PopParams[ i ])`). -/
def Pop.rankAt (st : Pop) (i : ℕ) : ℚ :=
  st.ranks.getD i 0

/-- Parameter vector of the record in slot `i` (`PopParams[ i ]`). -/
def Pop.paramsAt (st : Pop) (i : ℕ) : List ℚ :=
  (st.recs.map Prod.snd).getD i []

/-- `initBuffers` followed by `resetCurPopPos`: `CurPopSize = PopSize`,
`CurPopPos = 0`, no record stored yet. -/
def initPop (n : ℕ) : Pop :=
  { popSize := n, curPopSize := n, curPopPos := 0, recs := [] }

/-- The binary-search loop of `CBitePop::updatePop` (biteaux.h:1085-1097):
`while (p < i) { mid = (p+i)>>1; if rank(mid) >= UpdCost then i = mid else
p = mid+1 }`.  The loop is embedded with an explicit fuel argument (every
iteration shrinks `i - p`, so any `fuel ≥ i - p` gives the loop's result). -/
def bsLoop (ranks : List ℚ) (c : ℚ) : ℕ → ℕ → ℕ → ℕ
  | 0, p, _ => p
  | fuel + 1, p, i =>
    if p < i then
      let mid := (p + i) / 2
      if c ≤ ranks.getD mid 0 then bsLoop ranks c fuel p mid
      else bsLoop ranks c fuel (mid + 1) i
    else p

/-- `fabs`. -/
def fabsQ (x : ℚ) : ℚ :=
  if x < 0 then -x else x

/-- `CBitePop::isEqual` (biteaux.h:1285-1303), with the default tolerance
`etol = 0x1p-52`. -/
def isEqualCost (a b : ℚ) : Bool :=
  let d := fabsQ (b - a)
  if d = 0 then true
  else decide (d < (fabsQ b + fabsQ a) * mkRat 1 (2 ^ 52))

/-- Squared Euclidean distance between two parameter vectors, the
accumulation pattern `s += (x[i] - r[i])^2` used throughout biteaux.h. -/
def sqDist (x r : List ℚ) : ℚ :=
  ((x.zip r).map fun p => (p.1 - p.2) * (p.1 - p.2)).sum

/-- `CBitePop::isParams1FartherThan2` (biteaux.h:1314-1331). -/
def isParams1FartherThan2 (p1 p2 ref : List ℚ) : Bool :=
  decide (sqDist p1 ref > sqDist p2 ref)

/-- `CBitePop::updatePop` (biteaux.h:1061-1179).  Inputs: cost, parameter
vector and the `ReplaceThrN8` threshold.  Returns the updated population and
the insertion position (`PopSize` acts as the "not inserted" sentinel and is
also returned for tolerance-equal-cost insertions).  The splice branch
removes the record in the last slot `ri = PopSize-1` (`recs.take ri`) and
re-inserts it, rewritten to the new record, at position `p`; the centroid
side effects do not affect the stored records and are modelled in the
dedicated centroid section. -/
def updatePop (st : Pop) (c : ℚ) (params : List ℚ) (thrN8 : ℕ) : Pop × ℕ :=
  if st.curPopPos < st.popSize then
    -- fill phase: `ri = CurPopPos`, the new record is spliced into the
    -- sorted prefix of stored records without any cost check
    let ri := st.curPopPos
    let p := bsLoop st.ranks c ri 0 ri
    ({ st with curPopPos := st.curPopPos + 1,
               recs := st.recs.insertIdx p (c, params) }, p)
  else
    let ri := st.popSize - 1
    if c > st.rankAt ri then (st, st.popSize)
    else
      let p := bsLoop st.ranks c ri 0 ri
      let isEq := isEqualCost c (st.rankAt p)
      let doRep := isEq && decide (p ≠ 0) &&
        decide (p < st.curPopSize * thrN8 / 8) &&
        isParams1FartherThan2 (st.paramsAt p) params (st.paramsAt 0)
      let recs' :=
        if doRep then st.recs.set p (c, params)
        else (st.recs.take ri).insertIdx p (c, params)
      ({ st with recs := recs' }, if isEq then st.popSize else p)

/-- `incrCurPopSize` (biteaux.h:989-995); `CurPopSizeI`, `CurPopSize1` and
`CentLPC` are derived caches and are not part of the state. -/
def incrCurPopSize (st : Pop) : Pop :=
  { st with curPopSize := st.curPopSize + 1 }

/-- `decrCurPopSize` (biteaux.h:1005-1011). -/
def decrCurPopSize (st : Pop) : Pop :=
  { st with curPopSize := st.curPopSize - 1 }

/-- Well-formedness of a population: the fill counter never exceeds
capacity, exactly `min CurPopPos PopSize = CurPopPos` records are stored,
and the stored records are sorted ascending by rank. -/
def PopWF (st : Pop) : Prop :=
  0 < st.popSize ∧ st.curPopPos ≤ st.popSize ∧
    st.recs.length = st.curPopPos ∧ st.ranks.Sorted (· ≤ ·)

/-! ### Binary-search characterisation -/

theorem bsLoop_le {ranks : List ℚ} {c : ℚ} :
    ∀ fuel p i, p ≤ i → p ≤ bsLoop ranks c fuel p i ∧ bsLoop ranks c fuel p i ≤ i := by
  intro fuel
  induction fuel with
  | zero => intro p i h; exact ⟨le_refl _, h⟩
  | succ n ih =>
    intro p i h
    simp only [bsLoop]
    split
    · next hpi =>
      split
      · next =>
        have hmid : (p + i) / 2 ≤ i := by omega
        have hpm : p ≤ (p + i) / 2 := by omega
        have := ih p ((p + i) / 2) hpm
        exact ⟨this.1, le_trans this.2 hmid⟩
      · next =>
        have hmid : (p + i) / 2 + 1 ≤ i := by omega
        have := ih ((p + i) / 2 + 1) i hmid
        exact ⟨le_trans (by omega) this.1, this.2⟩
    · exact ⟨le_refl _, h⟩

/-- In a sorted rank list, earlier entries are no larger. -/
theorem sorted_getD_mono {l : List ℚ} (hs : l.Sorted (· ≤ ·)) {i j : ℕ}
    (hij : i ≤ j) (hj : j < l.length) : l.getD i 0 ≤ l.getD j 0 := by
  rcases eq_or_lt_of_le hij with rfl | hlt
  · exact le_refl _
  · rw [List.getD_eq_getElem l 0 (lt_trans hlt hj), List.getD_eq_getElem l 0 hj]
    exact hs.rel_get_of_lt hlt

/-- Specification of the binary-search loop: on a sorted rank list it
returns the first index in `[p, i)` whose rank is `≥ c` (or `i` if there is
none): every index before the result has rank `< c`, and the result itself
has rank `≥ c` unless it equals the right bound. -/
theorem bsLoop_spec {ranks : List ℚ} {c : ℚ} (hs : ranks.Sorted (· ≤ ·)) :
    ∀ fuel p i, p ≤ i → i ≤ ranks.length → i - p ≤ fuel →
      (∀ k, p ≤ k → k < bsLoop ranks c fuel p i → ranks.getD k 0 < c) ∧
      (bsLoop ranks c fuel p i < i → c ≤ ranks.getD (bsLoop ranks c fuel p i) 0) := by
  intro fuel
  induction fuel with
  | zero =>
    intro p i hpi _ hfuel
    have : p = i := by omega
    subst this
    simp only [bsLoop]
    exact ⟨fun k h1 h2 => by omega, fun h => by omega⟩
  | succ n ih =>
    intro p i hpi hilen hfuel
    simp only [bsLoop]
    split
    · next hpi' =>
      split
      · next hmid =>
        have h1 : p ≤ (p + i) / 2 := by omega
        have h2 : (p + i) / 2 ≤ ranks.length := by omega
        have h3 : (p + i) / 2 - p ≤ n := by omega
        obtain ⟨ha, hb⟩ := ih p ((p + i) / 2) h1 h2 h3
        refine ⟨ha, fun hlt => ?_⟩
        have hle := (@bsLoop_le ranks c n p ((p + i) / 2) h1).2
        rcases eq_or_lt_of_le hle with heq | hlt'
        · rw [heq]; exact hmid
        · exact hb hlt'
      · next hmid =>
        have hmidc : ranks.getD ((p + i) / 2) 0 < c := lt_of_not_le hmid
        have h1 : (p + i) / 2 + 1 ≤ i := by omega
        have h3 : i - ((p + i) / 2 + 1) ≤ n := by omega
        obtain ⟨ha, hb⟩ := ih ((p + i) / 2 + 1) i h1 hilen h3
        refine ⟨fun k hk1 hk2 => ?_, hb⟩
        rcases le_or_lt k ((p + i) / 2) with hk | hk
        · exact lt_of_le_of_lt (sorted_getD_mono hs hk (by omega)) hmidc
        · exact ha k hk hk2
    · next => exact ⟨fun k h1 h2 => by omega, fun h => by omega⟩

/-- Inserting `c` at a position below which all entries are `≤ c` and from
which on all entries are `≥ c` keeps the list sorted. -/
theorem sorted_insertIdx {c : ℚ} :
    ∀ (p : ℕ) (l : List ℚ), l.Sorted (· ≤ ·) → p ≤ l.length →
      (∀ k, k < p → l.getD k 0 ≤ c) →
      (∀ k, p ≤ k → k < l.length → c ≤ l.getD k 0) →
      (l.insertIdx p c).Sorted (· ≤ ·) := by
  intro p
  induction p with
  | zero =>
    intro l hs _ _ hhi
    rw [List.insertIdx_zero]
    refine List.sorted_cons.2 ⟨fun b hb => ?_, hs⟩
    obtain ⟨k, hk, rfl⟩ := List.mem_iff_getElem.1 hb
    have := hhi k (Nat.zero_le _) hk
    rwa [List.getD_eq_getElem l 0 hk] at this
  | succ n ih =>
    intro l hs hp hlo hhi
    match l with
    | [] => simp at hp
    | a :: t =>
      rw [List.insertIdx_succ_cons]
      have hst := (List.sorted_cons.1 hs).2
      have hat := (List.sorted_cons.1 hs).1
      have hn : n ≤ t.length := by simpa using hp
      refine List.sorted_cons.2 ⟨fun b hb => ?_, ?_⟩
      · rcases (List.mem_insertIdx hn).1 hb with rfl | hbt
        · have := hlo 0 (Nat.succ_pos _)
          simpa using this
        · exact hat b hbt
      · refine ih t hst hn (fun k hk => ?_) (fun k hk1 hk2 => ?_)
        · have := hlo (k + 1) (by omega)
          simpa using this
        · have := hhi (k + 1) (by omega) (by simpa using hk2)
          simpa using this

/-- Overwriting position `p` with `c` under the same side conditions keeps
the list sorted (the in-place equal-rank replacement branch). -/
theorem sorted_set {c : ℚ} :
    ∀ (p : ℕ) (l : List ℚ), l.Sorted (· ≤ ·) →
      (∀ k, k < p → l.getD k 0 ≤ c) →
      (∀ k, p ≤ k → k < l.length → c ≤ l.getD k 0) →
      (l.set p c).Sorted (· ≤ ·) := by
  intro p
  induction p with
  | zero =>
    intro l hs _ hhi
    match l with
    | [] => simpa using hs
    | a :: t =>
      rw [List.set_cons_zero]
      refine List.sorted_cons.2 ⟨fun b hb => ?_, (List.sorted_cons.1 hs).2⟩
      obtain ⟨k, hk, rfl⟩ := List.mem_iff_getElem.1 hb
      have := hhi (k + 1) (Nat.zero_le _) (by simpa using hk)
      rwa [List.getD_eq_getElem _ 0 (by simpa using Nat.succ_lt_succ hk),
        List.getElem_cons_succ] at this
  | succ n ih =>
    intro l hs hlo hhi
    match l with
    | [] => simpa using hs
    | a :: t =>
      rw [List.set_cons_succ]
      have hst := (List.sorted_cons.1 hs).2
      have hat := (List.sorted_cons.1 hs).1
      refine List.sorted_cons.2 ⟨fun b hb => ?_, ?_⟩
      · rcases List.mem_or_eq_of_mem_set hb with hbt | rfl
        · exact hat b hbt
        · have := hlo 0 (Nat.succ_pos _)
          simpa using this
      · refine ih t hst (fun k hk => ?_) (fun k hk1 hk2 => ?_)
        · have := hlo (k + 1) (by omega)
          simpa using this
        · have := hhi (k + 1) (by omega) (by simpa using hk2)
          simpa using this

theorem getD_take_eq {l : List ℚ} {n k : ℕ} (hk : k < n) (hk2 : k < l.length) :
    (l.take n).getD k 0 = l.getD k 0 := by
  rw [List.getD_eq_getElem _ 0 (by rw [List.length_take]; omega),
    List.getD_eq_getElem _ 0 hk2]
  simp

theorem map_insertIdx {α β : Type} (f : α → β) (x : α) :
    ∀ (p : ℕ) (l : List α), (l.insertIdx p x).map f = (l.map f).insertIdx p (f x) := by
  intro p
  induction p with
  | zero => intro l; simp
  | succ n ih =>
    intro l
    match l with
    | [] => simp
    | a :: t => simp [ih t]

theorem ranks_length (st : Pop) : st.ranks.length = st.recs.length := by
  simp [Pop.ranks]

/-- `updatePop` preserves well-formedness: in particular the stored records
stay sorted ascending by rank. -/
theorem updatePop_WF (st : Pop) (c : ℚ) (params : List ℚ) (thr : ℕ)
    (h : PopWF st) : PopWF (updatePop st c params thr).1 := by
  obtain ⟨hpos, hle, hlen, hs⟩ := h
  by_cases hfill : st.curPopPos < st.popSize
  · -- fill phase
    have hst : (updatePop st c params thr).1 =
        { st with curPopPos := st.curPopPos + 1,
                  recs := st.recs.insertIdx
                    (bsLoop st.ranks c st.curPopPos 0 st.curPopPos) (c, params) } := by
      rw [updatePop, if_pos hfill]
    rw [hst]
    have hrlen : st.ranks.length = st.curPopPos := by rw [ranks_length, hlen]
    have hspec := bsLoop_spec (c := c) hs st.curPopPos 0 st.curPopPos
      (Nat.zero_le _) (by omega) (by omega)
    have hple := (@bsLoop_le st.ranks c st.curPopPos 0
      st.curPopPos (Nat.zero_le _)).2
    set p := bsLoop st.ranks c st.curPopPos 0 st.curPopPos with hp
    refine ⟨hpos, by show st.curPopPos + 1 ≤ st.popSize; omega, ?_, ?_⟩
    · show (st.recs.insertIdx p (c, params)).length = st.curPopPos + 1
      rw [List.length_insertIdx _ _ (by omega), hlen]
    · show ((st.recs.insertIdx p (c, params)).map Prod.fst).Sorted (· ≤ ·)
      rw [map_insertIdx]
      refine sorted_insertIdx p _ hs (by rw [List.length_map]; omega)
        (fun k hk => ?_) (fun k hk1 hk2 => ?_)
      · exact le_of_lt (hspec.1 k (Nat.zero_le _) hk)
      · have hcp : c ≤ (st.recs.map Prod.fst).getD p 0 := by
          refine hspec.2 ?_
          rw [List.length_map, hlen] at hk2
          omega
        refine le_trans hcp (sorted_getD_mono hs hk1 ?_)
        rw [ranks_length]
        simpa using hk2
  · -- population already filled
    have hcp0 : st.curPopPos = st.popSize := by omega
    have hrlen : st.ranks.length = st.popSize := by rw [ranks_length, hlen, hcp0]
    by_cases hrej : c > st.rankAt (st.popSize - 1)
    · have hst : (updatePop st c params thr).1 = st := by
        rw [updatePop, if_neg hfill, if_pos hrej]
      rw [hst]
      exact ⟨hpos, hle, hlen, hs⟩
    · have hcle' : c ≤ st.rankAt (st.popSize - 1) := le_of_not_lt hrej
      have hspec := bsLoop_spec (c := c) hs (st.popSize - 1) 0 (st.popSize - 1)
        (Nat.zero_le _) (by omega) (by omega)
      have hple := (@bsLoop_le st.ranks c (st.popSize - 1) 0
        (st.popSize - 1) (Nat.zero_le _)).2
      set p := bsLoop st.ranks c (st.popSize - 1) 0 (st.popSize - 1) with hp
      -- from position p on, every stored rank is at least c
      have hcp : ∀ k, p ≤ k → k < st.ranks.length → c ≤ st.ranks.getD k 0 := by
        intro k hk1 hk2
        have hcpp : c ≤ st.ranks.getD p 0 := by
          rcases eq_or_lt_of_le hple with heq | hlt
          · rw [heq]; exact hcle'
          · exact hspec.2 hlt
        exact le_trans hcpp (sorted_getD_mono hs hk1 hk2)
      by_cases hdo : (isEqualCost c (st.rankAt p) && decide (p ≠ 0) &&
          decide (p < st.curPopSize * thr / 8) &&
          isParams1FartherThan2 (st.paramsAt p) params (st.paramsAt 0)) = true
      · -- in-place replacement of a tolerance-equal record
        have hst : (updatePop st c params thr).1 =
            { st with recs := st.recs.set p (c, params) } := by
          rw [updatePop, if_neg hfill, if_neg hrej]
          simp only [← hp, hdo, if_true]
        rw [hst]
        refine ⟨hpos, hle, ?_, ?_⟩
        · show (st.recs.set p (c, params)).length = st.curPopPos
          rw [List.length_set, hlen]
        · show ((st.recs.set p (c, params)).map Prod.fst).Sorted (· ≤ ·)
          rw [List.map_set]
          refine sorted_set p _ hs (fun k hk => ?_) (fun k hk1 hk2 => ?_)
          · exact le_of_lt (hspec.1 k (Nat.zero_le _) hk)
          · refine hcp k hk1 ?_
            rw [ranks_length]
            simpa using hk2
      · -- splice: evict the worst record, insert the candidate at p
        have hst : (updatePop st c params thr).1 =
            { st with recs :=
                (st.recs.take (st.popSize - 1)).insertIdx p (c, params) } := by
          rw [updatePop, if_neg hfill, if_neg hrej]
          simp only [← hp, hdo, if_false, Bool.false_eq_true]
        rw [hst]
        refine ⟨hpos, hle, ?_, ?_⟩
        · show ((st.recs.take (st.popSize - 1)).insertIdx p (c, params)).length =
            st.curPopPos
          rw [List.length_insertIdx _ _
            (by rw [List.length_take]; omega), List.length_take]
          omega
        · show (((st.recs.take (st.popSize - 1)).insertIdx p (c, params)).map
            Prod.fst).Sorted (· ≤ ·)
          rw [map_insertIdx, List.map_take]
          refine sorted_insertIdx p _
            (List.Pairwise.sublist (List.take_sublist _ _) hs)
            (by rw [List.length_take, List.length_map, hlen]; omega)
            (fun k hk => ?_) (fun k hk1 hk2 => ?_)
          · rw [getD_take_eq (by omega) (by rw [List.length_map, hlen]; omega)]
            exact le_of_lt (hspec.1 k (Nat.zero_le _) hk)
          · rw [List.length_take, List.length_map, hlen] at hk2
            rw [getD_take_eq (by omega) (by rw [List.length_map, hlen]; omega)]
            exact hcp k hk1 (by rw [hrlen]; omega)

/-- Folding a sequence of `updatePop` calls (the states a population moves
through under arbitrary insertions). -/
def runUpdates (st : Pop) (ops : List (ℚ × List ℚ × ℕ)) : Pop :=
  ops.foldl (fun s op => (updatePop s op.1 op.2.1 op.2.2).1) st

theorem initPop_WF {n : ℕ} (hn : 1 ≤ n) : PopWF (initPop n) :=
  ⟨hn, Nat.zero_le _, rfl, List.sorted_nil⟩

theorem runUpdates_WF (st : Pop) (ops : List (ℚ × List ℚ × ℕ)) (h : PopWF st) :
    PopWF (runUpdates st ops) := by
  induction ops generalizing st with
  | nil => exact h
  | cons op rest ih =>
    exact ih _ (updatePop_WF st op.1 op.2.1 op.2.2 h)

/-- C1: for every population initialized with capacity `n ≥ 1` and every
sequence of `insertOrReplace` (`updatePop`) calls, the stored records remain
sorted ascending by rank; in particular any two stored slots `i < j` inside
`[0, CurPopSize)` satisfy `rank(i) ≤ rank(j)`. -/
theorem C1_sort_invariant (n : ℕ) (hn : 1 ≤ n) (ops : List (ℚ × List ℚ × ℕ)) :
    (runUpdates (initPop n) ops).ranks.Sorted (· ≤ ·) ∧
    ∀ i j, i < j → j < (runUpdates (initPop n) ops).curPopSize →
      j < (runUpdates (initPop n) ops).recs.length →
      (runUpdates (initPop n) ops).rankAt i ≤ (runUpdates (initPop n) ops).rankAt j := by
  have hwf := runUpdates_WF (initPop n) ops (initPop_WF hn)
  refine ⟨hwf.2.2.2, fun i j hij hjc hjl => ?_⟩
  exact sorted_getD_mono hwf.2.2.2 (le_of_lt hij) (by rw [ranks_length]; exact hjl)

/-- Witness for C1 at a concrete population and insertion sequence. -/
theorem C1_sort_invariant_witness :
    (runUpdates (initPop 2) [(5, [1], 0), (3, [2], 0)]).rankAt 0 ≤
      (runUpdates (initPop 2) [(5, [1], 0), (3, [2], 0)]).rankAt 1 :=
  (C1_sort_invariant 2 (by decide) [(5, [1], 0), (3, [2], 0)]).2
    0 1 (by decide) (by decide) (by decide)

/-- C2 counterexample: a full population holding one record of rank 5;
a candidate of cost exactly 5 (equal to the worst rank, not exceeding it)
is actually inserted (the stored records change), yet `updatePop` reports it
via the "not inserted" sentinel `PopSize ≥ CurPopSize` — contradicting the
claim that an equal-cost candidate is not reported via the sentinel. -/
theorem C2_counterexample :
    (5 : ℚ) = (Pop.mk 1 1 1 [(5, [0])]).rankAt ((Pop.mk 1 1 1 [(5, [0])]).popSize - 1) ∧
    ¬ (5 : ℚ) > (Pop.mk 1 1 1 [(5, [0])]).rankAt ((Pop.mk 1 1 1 [(5, [0])]).popSize - 1) ∧
    (updatePop (Pop.mk 1 1 1 [(5, [0])]) 5 [1] 0).2 ≥ (Pop.mk 1 1 1 [(5, [0])]).curPopSize ∧
    (updatePop (Pop.mk 1 1 1 [(5, [0])]) 5 [1] 0).1.recs ≠ (Pop.mk 1 1 1 [(5, [0])]).recs := by
  norm_num [updatePop, bsLoop, Pop.rankAt, Pop.ranks, Pop.paramsAt, isEqualCost,
    fabsQ, isParams1FartherThan2, sqDist]

/-- C2 (amended): on a full population, `updatePop` leaves the stored
records, their order and the population size unchanged and returns the
sentinel `PopSize` exactly when the candidate cost strictly exceeds the
worst record's rank.  Otherwise the candidate is accepted — it is stored and
the record count stays `PopSize` — but the return value is the sentinel
`PopSize` precisely when the cost is tolerance-equal to the rank at the
insertion point found by the binary search (so equal-cost acceptances, in
particular at the worst slot, are also reported via the sentinel). -/
theorem C2_updatePop_reject (st : Pop) (c : ℚ) (params : List ℚ) (thr : ℕ)
    (h : PopWF st) (hfull : st.curPopPos = st.popSize) :
    (c > st.rankAt (st.popSize - 1) →
      (updatePop st c params thr).1 = st ∧ (updatePop st c params thr).2 = st.popSize) ∧
    (¬ c > st.rankAt (st.popSize - 1) →
      (updatePop st c params thr).1.recs.length = st.popSize ∧
      (∃ k, k < st.popSize ∧
        (updatePop st c params thr).1.recs.getD k (0, []) = (c, params)) ∧
      ((updatePop st c params thr).2 = st.popSize ↔
        isEqualCost c (st.rankAt
          (bsLoop st.ranks c (st.popSize - 1) 0 (st.popSize - 1))) = true)) := by
  obtain ⟨hpos, hle, hlen, hs⟩ := h
  have hnfill : ¬ st.curPopPos < st.popSize := by omega
  constructor
  · intro hrej
    rw [updatePop, if_neg hnfill, if_pos hrej]
    exact ⟨rfl, rfl⟩
  · intro hacc
    have hple := (@bsLoop_le st.ranks c (st.popSize - 1) 0
      (st.popSize - 1) (Nat.zero_le _)).2
    set p := bsLoop st.ranks c (st.popSize - 1) 0 (st.popSize - 1) with hp
    have hplt : p < st.popSize := by omega
    have hplen : p < st.recs.length := by omega
    by_cases hdo : (isEqualCost c (st.rankAt p) && decide (p ≠ 0) &&
        decide (p < st.curPopSize * thr / 8) &&
        isParams1FartherThan2 (st.paramsAt p) params (st.paramsAt 0)) = true
    · have hisEq : isEqualCost c (st.rankAt p) = true := by
        simp only [Bool.and_eq_true] at hdo
        exact hdo.1.1.1
      have hdo' : (true && decide (p ≠ 0) && decide (p < st.curPopSize * thr / 8) &&
          isParams1FartherThan2 (st.paramsAt p) params (st.paramsAt 0)) = true := by
        rwa [hisEq] at hdo
      have hst : updatePop st c params thr =
          ({ st with recs := st.recs.set p (c, params) }, st.popSize) := by
        rw [updatePop, if_neg hnfill, if_neg hacc]
        simp only [← hp, hisEq, hdo', if_true]
      rw [hst]
      dsimp only
      refine ⟨by simp [hlen, hfull], ⟨p, hplt, ?_⟩, by simp [hisEq]⟩
      rw [List.getD_eq_getElem _ _ (by rw [List.length_set]; exact hplen)]
      exact List.getElem_set_self _
    · have hst : updatePop st c params thr =
          ({ st with recs := (st.recs.take (st.popSize - 1)).insertIdx p (c, params) },
            if isEqualCost c (st.rankAt p) then st.popSize else p) := by
        rw [updatePop, if_neg hnfill, if_neg hacc]
        simp only [← hp, hdo, if_false, Bool.false_eq_true]
      have htk : (st.recs.take (st.popSize - 1)).length = st.popSize - 1 := by
        rw [List.length_take]
        omega
      have hplet : p ≤ (st.recs.take (st.popSize - 1)).length := by omega
      rw [hst]
      dsimp only
      refine ⟨?_, ⟨p, hplt, ?_⟩, ?_⟩
      · rw [List.length_insertIdx _ _ hplet, htk]
        omega
      · rw [List.getD_eq_getElem _ _
          (by rw [List.length_insertIdx _ _ hplet, htk]; omega)]
        exact List.getElem_insertIdx_self _ _ _ hplet
      · constructor
        · intro hret
          by_contra hne
          rw [if_neg (by simpa using hne)] at hret
          omega
        · intro hisEq
          simp [hisEq]

/-- Witness for C2's amended theorem: both the strict-rejection branch and
the acceptance branch at a concrete full population. -/
theorem C2_updatePop_reject_witness :
    ((updatePop (Pop.mk 2 2 2 [(1, [0]), (4, [0])]) 7 [1] 0).1 =
       Pop.mk 2 2 2 [(1, [0]), (4, [0])] ∧
     (updatePop (Pop.mk 2 2 2 [(1, [0]), (4, [0])]) 7 [1] 0).2 = 2) := by
  refine (C2_updatePop_reject (Pop.mk 2 2 2 [(1, [0]), (4, [0])]) 7 [1] 0
    ⟨by decide, by decide, by decide, by decide⟩ (by decide)).1 (by decide)

/-! ## Centroid (`CBitePop::updateCentroid`, biteaux.h:784-862)

`BatchCount = (1 << IntOverBits) - 1 = 31` for both the 8-byte parameter
types.  The accumulation `tp[i] += p[i]` is element-wise vector addition and
`cp[i] = tp[i] * cm` scales by `cm = 1.0 / PopSize`; the arithmetic is
embedded exactly over `ℚ`. -/

/-- Element-wise `tp[i] += p[i]`. -/
def addVec (a b : List ℚ) : List ℚ :=
  List.zipWith (· + ·) a b

/-- `copyParams( tp, chunk[0] )` followed by `tp[i] += chunk[j][i]` for the
remaining vectors of the chunk. -/
def sumChunk (recs : List (List ℚ)) : List ℚ :=
  match recs with
  | [] => []
  | r :: rest => rest.foldl addVec r

/-- `cp[i] = tp[i] * cm`. -/
def scaleVec (v : List ℚ) (cm : ℚ) : List ℚ :=
  v.map (· * cm)

/-- The inner chunk-summing loop of the batched path (biteaux.h:829-841):
after `copyParams( tp, PopParams[ j ])`, the body `j++;
tp[ i ] += PopParams[ j ][ i ]` runs `c` more times (the outer code's
decremented `c`), threading `j`.  Returns the accumulated vector together
with the final value of `j`. -/
def chunkAdd (recs : List (List ℚ)) : ℕ → ℕ → List ℚ → List ℚ × ℕ
  | 0, j, tp => (tp, j)
  | c + 1, j, tp => chunkAdd recs c (j + 1) (addVec tp (recs.getD (j + 1) []))

/-- The outer batched loop of `updateCentroid` (biteaux.h:817-860): while
`pl > 0` it takes `c = min( pl, BatchCount )`, starts the chunk with
`copyParams( tp, PopParams[ j ])` — `j` is not re-advanced between chunks,
so every chunk after the first starts at the index where the previous
chunk's inner `j++` loop stopped — and folds the chunk sum scaled by `cm`
into `cp` (overwriting it on the first chunk, the `DoCopy` flag).  `fuel`
bounds the iteration count; each iteration consumes `c ≥ 1` of `pl`, so
`fuel = pl` suffices. -/
def centLoop (recs : List (List ℚ)) (cm : ℚ) : ℕ → ℕ → ℕ → List ℚ → Bool → List ℚ
  | 0, _, _, cp, _ => cp
  | fuel + 1, pl, j, cp, doCopy =>
    if pl = 0 then cp
    else
      centLoop recs cm fuel (pl - (if 31 < pl then 31 else pl))
        (chunkAdd recs ((if 31 < pl then 31 else pl) - 1) j (recs.getD j [])).2
        (if doCopy then
          scaleVec (chunkAdd recs ((if 31 < pl then 31 else pl) - 1) j
            (recs.getD j [])).1 cm
         else
          addVec cp (scaleVec (chunkAdd recs ((if 31 < pl then 31 else pl) - 1) j
            (recs.getD j [])).1 cm))
        false

/-- The record indices the batched loop reads, chunk by chunk: a chunk
starting at `j` with count `c` reads `j, j+1, …, j+c-1` and leaves
`j = j+c-1` for the next chunk's `copyParams`. -/
def readIdxs : ℕ → ℕ → ℕ → List ℕ
  | 0, _, _ => []
  | fuel + 1, pl, j =>
    if pl = 0 then []
    else
      List.range' j (if 31 < pl then 31 else pl) ++
        readIdxs fuel (pl - (if 31 < pl then 31 else pl))
          (j + (if 31 < pl then 31 else pl) - 1)

/-- `CBitePop::updateCentroid` on the parameter vectors of all `PopSize`
record slots (note: the source divides by `PopSize` and iterates
`j < PopSize`, not `CurPopSize`). -/
def updateCentroid (recs : List (List ℚ)) (popSize : ℕ) : List ℚ :=
  let cm : ℚ := mkRat 1 popSize
  if popSize ≤ 31 then scaleVec (sumChunk recs) cm
  else centLoop recs cm popSize popSize 0 [] true

/-- `updateCentroid` of a population state. -/
def Pop.updateCentroid (st : Pop) : List ℚ :=
  BiteOpt.updateCentroid (st.recs.map Prod.snd) st.popSize

theorem addVec_getD {a b : List ℚ} {i : ℕ} (ha : i < a.length) (hb : i < b.length) :
    (addVec a b).getD i 0 = a.getD i 0 + b.getD i 0 := by
  rw [addVec, List.getD_eq_getElem _ 0 (by rw [List.length_zipWith]; omega),
    List.getD_eq_getElem a 0 ha, List.getD_eq_getElem b 0 hb]
  exact List.getElem_zipWith

theorem foldl_addVec_getD {m i : ℕ} (hi : i < m) :
    ∀ (rest : List (List ℚ)) (acc : List ℚ), acc.length = m →
      (∀ r ∈ rest, r.length = m) →
      (rest.foldl addVec acc).length = m ∧
      (rest.foldl addVec acc).getD i 0 =
        acc.getD i 0 + (rest.map (fun r => r.getD i 0)).sum := by
  intro rest
  induction rest with
  | nil => intro acc hacc _; simpa using hacc
  | cons b bs ih =>
    intro acc hacc hall
    have hb : b.length = m := hall b (List.mem_cons_self _ _)
    have hab : (addVec acc b).length = m := by
      rw [addVec, List.length_zipWith]; omega
    obtain ⟨h1, h2⟩ := ih (addVec acc b) hab
      (fun r hr => hall r (List.mem_cons_of_mem _ hr))
    refine ⟨h1, ?_⟩
    rw [List.foldl_cons, h2, addVec_getD (by omega) (by omega)]
    simp only [List.map_cons, List.sum_cons]
    ring

theorem sumChunk_spec {m i : ℕ} (hi : i < m) (recs : List (List ℚ))
    (hne : recs ≠ []) (hall : ∀ r ∈ recs, r.length = m) :
    (sumChunk recs).length = m ∧
    (sumChunk recs).getD i 0 = (recs.map (fun r => r.getD i 0)).sum := by
  match recs with
  | [] => exact absurd rfl hne
  | r :: rest =>
    obtain ⟨h1, h2⟩ := foldl_addVec_getD hi rest r
      (hall r (List.mem_cons_self _ _))
      (fun x hx => hall x (List.mem_cons_of_mem _ hx))
    exact ⟨h1, by rw [sumChunk, h2]; simp⟩

theorem scaleVec_getD {v : List ℚ} {cm : ℚ} {i : ℕ} (hv : i < v.length) :
    (scaleVec v cm).getD i 0 = v.getD i 0 * cm := by
  rw [scaleVec, List.getD_eq_getElem _ 0 (by rw [List.length_map]; omega),
    List.getD_eq_getElem v 0 hv]
  simp

theorem chunkAdd_snd (recs : List (List ℚ)) :
    ∀ (c j : ℕ) (tp : List ℚ), (chunkAdd recs c j tp).2 = j + c := by
  intro c
  induction c with
  | zero => intro j tp; rfl
  | succ n ih =>
    intro j tp
    rw [chunkAdd, ih]
    omega

theorem chunkAdd_spec {m i : ℕ} (hi : i < m) (recs : List (List ℚ)) :
    ∀ (c j : ℕ) (tp : List ℚ), tp.length = m →
      (∀ k, j + 1 ≤ k → k ≤ j + c → (recs.getD k []).length = m) →
      (chunkAdd recs c j tp).1.length = m ∧
      (chunkAdd recs c j tp).1.getD i 0 =
        tp.getD i 0 +
          ((List.range' (j + 1) c).map (fun k => (recs.getD k []).getD i 0)).sum := by
  intro c
  induction c with
  | zero =>
    intro j tp htp _
    refine ⟨htp, ?_⟩
    simp [chunkAdd]
  | succ n ih =>
    intro j tp htp hread
    have hjlen : (recs.getD (j + 1) []).length = m :=
      hread (j + 1) (le_refl _) (by omega)
    have htp' : (addVec tp (recs.getD (j + 1) [])).length = m := by
      rw [addVec, List.length_zipWith]
      omega
    obtain ⟨h1, h2⟩ := ih (j + 1) (addVec tp (recs.getD (j + 1) []))
      htp' (fun k hk1 hk2 => hread k (by omega) (by omega))
    rw [chunkAdd]
    refine ⟨h1, ?_⟩
    rw [h2, addVec_getD (by omega) (by omega), List.range'_succ (j + 1) n 1]
    simp only [List.map_cons, List.sum_cons]
    ring

theorem readIdxs_lt :
    ∀ (fuel pl j k : ℕ), k ∈ readIdxs fuel pl j → k < j + pl := by
  intro fuel
  induction fuel with
  | zero =>
    intro pl j k hk
    simp [readIdxs] at hk
  | succ n ih =>
    intro pl j k hk
    rw [readIdxs] at hk
    by_cases hpl : pl = 0
    · rw [if_pos hpl] at hk
      simp at hk
    · rw [if_neg hpl] at hk
      have hc1 : 1 ≤ (if 31 < pl then 31 else pl) := by split <;> omega
      have hcle : (if 31 < pl then 31 else pl) ≤ pl := by split <;> omega
      rcases List.mem_append.1 hk with h | h
      · have := List.mem_range'_1.1 h
        omega
      · have := ih _ _ _ h
        omega

theorem centLoop_spec_false {m i : ℕ} (hi : i < m) (recs : List (List ℚ)) (cm : ℚ) :
    ∀ (fuel pl j : ℕ) (cp : List ℚ), pl ≤ fuel → cp.length = m →
      (∀ k ∈ readIdxs (fuel) pl j, (recs.getD k []).length = m) →
      (centLoop recs cm fuel pl j cp false).length = m ∧
      (centLoop recs cm fuel pl j cp false).getD i 0 =
        cp.getD i 0 +
          ((readIdxs fuel pl j).map (fun k => (recs.getD k []).getD i 0)).sum * cm := by
  intro fuel
  induction fuel with
  | zero =>
    intro pl j cp hf hcp _
    refine ⟨hcp, ?_⟩
    simp [centLoop, readIdxs]
  | succ n ih =>
    intro pl j cp hf hcp hwf
    by_cases hpl : pl = 0
    · subst hpl
      rw [centLoop, if_pos rfl, readIdxs, if_pos rfl]
      exact ⟨hcp, by simp⟩
    · have hc1 : 1 ≤ (if 31 < pl then 31 else pl) := by split <;> omega
      have hcle : (if 31 < pl then 31 else pl) ≤ pl := by split <;> omega
      have hri : readIdxs (n + 1) pl j =
          List.range' j (if 31 < pl then 31 else pl) ++
            readIdxs n (pl - (if 31 < pl then 31 else pl))
              (j + (if 31 < pl then 31 else pl) - 1) := by
        rw [readIdxs, if_neg hpl]
      have htp : (recs.getD j []).length = m := by
        apply hwf
        rw [hri]
        exact List.mem_append.2 (Or.inl (List.mem_range'_1.2 ⟨le_refl _, by omega⟩))
      obtain ⟨hck, hcg⟩ := chunkAdd_spec hi recs ((if 31 < pl then 31 else pl) - 1) j
        (recs.getD j []) htp
        (fun k hk1 hk2 => by
          apply hwf
          rw [hri]
          exact List.mem_append.2 (Or.inl (List.mem_range'_1.2 ⟨by omega, by omega⟩)))
      have hsnd := chunkAdd_snd recs ((if 31 < pl then 31 else pl) - 1) j (recs.getD j [])
      have hjj : j + ((if 31 < pl then 31 else pl) - 1) =
          j + (if 31 < pl then 31 else pl) - 1 := by omega
      have hcp' : (addVec cp (scaleVec (chunkAdd recs
          ((if 31 < pl then 31 else pl) - 1) j (recs.getD j [])).1 cm)).length = m := by
        rw [addVec, List.length_zipWith, scaleVec, List.length_map]
        omega
      obtain ⟨h1, h2⟩ := ih (pl - (if 31 < pl then 31 else pl))
        (j + (if 31 < pl then 31 else pl) - 1)
        (addVec cp (scaleVec (chunkAdd recs
          ((if 31 < pl then 31 else pl) - 1) j (recs.getD j [])).1 cm))
        (by omega) hcp'
        (fun k hk => hwf k (by rw [hri]; exact List.mem_append.2 (Or.inr hk)))
      have hform : centLoop recs cm (n + 1) pl j cp false =
          centLoop recs cm n (pl - (if 31 < pl then 31 else pl))
            (chunkAdd recs ((if 31 < pl then 31 else pl) - 1) j (recs.getD j [])).2
            (addVec cp (scaleVec (chunkAdd recs
              ((if 31 < pl then 31 else pl) - 1) j (recs.getD j [])).1 cm))
            false := by
        rw [centLoop, if_neg hpl, if_neg Bool.false_ne_true]
      have hrsum : ((List.range' j (if 31 < pl then 31 else pl)).map
          (fun k => (recs.getD k []).getD i 0)).sum =
          (recs.getD j []).getD i 0 +
            ((List.range' (j + 1) ((if 31 < pl then 31 else pl) - 1)).map
              (fun k => (recs.getD k []).getD i 0)).sum := by
        conv_lhs => rw [show (if 31 < pl then 31 else pl) =
            ((if 31 < pl then 31 else pl) - 1) + 1 by omega,
          List.range'_succ j ((if 31 < pl then 31 else pl) - 1) 1]
        simp only [List.map_cons, List.sum_cons]
      rw [hform, hsnd, hjj]
      refine ⟨h1, ?_⟩
      rw [h2, addVec_getD (by omega) (by rw [scaleVec, List.length_map]; omega),
        scaleVec_getD (by omega), hcg, hri, List.map_append, List.sum_append, hrsum]
      ring

theorem centLoop_spec_true {m i : ℕ} (hi : i < m) (recs : List (List ℚ)) (cm : ℚ)
    (fuel pl j : ℕ) (cp : List ℚ) (hpl : 1 ≤ pl) (hf : pl ≤ fuel)
    (hwf : ∀ k ∈ readIdxs fuel pl j, (recs.getD k []).length = m) :
    (centLoop recs cm fuel pl j cp true).length = m ∧
    (centLoop recs cm fuel pl j cp true).getD i 0 =
      ((readIdxs fuel pl j).map (fun k => (recs.getD k []).getD i 0)).sum * cm := by
  obtain ⟨n, rfl⟩ : ∃ n, fuel = n + 1 := ⟨fuel - 1, by omega⟩
  have hpl0 : ¬ pl = 0 := by omega
  have hc1 : 1 ≤ (if 31 < pl then 31 else pl) := by split <;> omega
  have hcle : (if 31 < pl then 31 else pl) ≤ pl := by split <;> omega
  have hri : readIdxs (n + 1) pl j =
      List.range' j (if 31 < pl then 31 else pl) ++
        readIdxs n (pl - (if 31 < pl then 31 else pl))
          (j + (if 31 < pl then 31 else pl) - 1) := by
    rw [readIdxs, if_neg hpl0]
  have htp : (recs.getD j []).length = m := by
    apply hwf
    rw [hri]
    exact List.mem_append.2 (Or.inl (List.mem_range'_1.2 ⟨le_refl _, by omega⟩))
  obtain ⟨hck, hcg⟩ := chunkAdd_spec hi recs ((if 31 < pl then 31 else pl) - 1) j
    (recs.getD j []) htp
    (fun k hk1 hk2 => by
      apply hwf
      rw [hri]
      exact List.mem_append.2 (Or.inl (List.mem_range'_1.2 ⟨by omega, by omega⟩)))
  have hsnd := chunkAdd_snd recs ((if 31 < pl then 31 else pl) - 1) j (recs.getD j [])
  have hjj : j + ((if 31 < pl then 31 else pl) - 1) =
      j + (if 31 < pl then 31 else pl) - 1 := by omega
  obtain ⟨h1, h2⟩ := centLoop_spec_false hi recs cm n
    (pl - (if 31 < pl then 31 else pl))
    (j + (if 31 < pl then 31 else pl) - 1)
    (scaleVec (chunkAdd recs ((if 31 < pl then 31 else pl) - 1) j
      (recs.getD j [])).1 cm)
    (by omega) (by rw [scaleVec, List.length_map]; omega)
    (fun k hk => hwf k (by rw [hri]; exact List.mem_append.2 (Or.inr hk)))
  have hform : centLoop recs cm (n + 1) pl j cp true =
      centLoop recs cm n (pl - (if 31 < pl then 31 else pl))
        (chunkAdd recs ((if 31 < pl then 31 else pl) - 1) j (recs.getD j [])).2
        (scaleVec (chunkAdd recs ((if 31 < pl then 31 else pl) - 1) j
          (recs.getD j [])).1 cm)
        false := by
    rw [centLoop, if_neg hpl0, if_pos rfl]
  have hrsum : ((List.range' j (if 31 < pl then 31 else pl)).map
      (fun k => (recs.getD k []).getD i 0)).sum =
      (recs.getD j []).getD i 0 +
        ((List.range' (j + 1) ((if 31 < pl then 31 else pl) - 1)).map
          (fun k => (recs.getD k []).getD i 0)).sum := by
    conv_lhs => rw [show (if 31 < pl then 31 else pl) =
        ((if 31 < pl then 31 else pl) - 1) + 1 by omega,
      List.range'_succ j ((if 31 < pl then 31 else pl) - 1) 1]
    simp only [List.map_cons, List.sum_cons]
  rw [hform, hsnd, hjj]
  refine ⟨h1, ?_⟩
  rw [h2, scaleVec_getD (by omega), hcg, hri, List.map_append, List.sum_append, hrsum]
  ring

theorem chunkAdd_congr (l1 l2 : List (List ℚ)) :
    ∀ (c j : ℕ) (tp : List ℚ),
      (∀ k, j + 1 ≤ k → k ≤ j + c → l1.getD k [] = l2.getD k []) →
      chunkAdd l1 c j tp = chunkAdd l2 c j tp := by
  intro c
  induction c with
  | zero => intro j tp _; rfl
  | succ n ih =>
    intro j tp h
    rw [chunkAdd, chunkAdd, h (j + 1) (le_refl _) (by omega)]
    exact ih (j + 1) _ (fun k hk1 hk2 => h k (by omega) (by omega))

theorem centLoop_congr (l1 l2 : List (List ℚ)) (cm : ℚ) :
    ∀ (fuel pl j : ℕ) (cp : List ℚ) (dc : Bool),
      (∀ k, k < j + pl → l1.getD k [] = l2.getD k []) →
      centLoop l1 cm fuel pl j cp dc = centLoop l2 cm fuel pl j cp dc := by
  intro fuel
  induction fuel with
  | zero => intro pl j cp dc _; rfl
  | succ n ih =>
    intro pl j cp dc h
    by_cases hpl : pl = 0
    · subst hpl
      rw [centLoop, if_pos rfl, centLoop, if_pos rfl]
    · have hc1 : 1 ≤ (if 31 < pl then 31 else pl) := by split <;> omega
      have hcle : (if 31 < pl then 31 else pl) ≤ pl := by split <;> omega
      have hj0 : l1.getD j [] = l2.getD j [] := h j (by omega)
      have hch : chunkAdd l1 ((if 31 < pl then 31 else pl) - 1) j (l1.getD j []) =
          chunkAdd l2 ((if 31 < pl then 31 else pl) - 1) j (l2.getD j []) := by
        rw [hj0]
        exact chunkAdd_congr l1 l2 _ j _ (fun k hk1 hk2 => h k (by omega))
      have hsnd := chunkAdd_snd l2 ((if 31 < pl then 31 else pl) - 1) j (l2.getD j [])
      rw [centLoop, if_neg hpl, centLoop, if_neg hpl, hch, hsnd]
      exact ih _ _ _ _ (fun k hk => h k (by omega))

/-- One unfolding of the batched loop against a full first chunk. -/
theorem centLoop_step31 (l : List (List ℚ)) (cm : ℚ) (g pl j : ℕ) (cp : List ℚ)
    (hpl : 31 < pl) :
    centLoop l cm (g + 1) pl j cp true =
    centLoop l cm g (pl - 31) (chunkAdd l 30 j (l.getD j [])).2
      (scaleVec (chunkAdd l 30 j (l.getD j [])).1 cm) false := by
  rw [centLoop, if_neg (by omega), if_pos hpl, if_pos rfl]

theorem getD_set_ne (l : List (List ℚ)) (a k : ℕ) (v : List ℚ) (h : a ≠ k) :
    (l.set a v).getD k [] = l.getD k [] := by
  rw [List.getD_eq_getElem?_getD, List.getD_eq_getElem?_getD, List.getElem?_set_ne h]

/-- In the batched path (`PopSize > 31`) the last record slot is never
read: the loop's `j` is not re-advanced between chunks, so the chunk reads
fall short of the final slot and the computed centroid is independent of
its contents. -/
theorem updateCentroid_set_last (recs : List (List ℚ)) (n : ℕ) (v : List ℚ)
    (hn : 31 < n) :
    updateCentroid (recs.set (n - 1) v) n = updateCentroid recs n := by
  obtain ⟨f, rfl⟩ : ∃ f, n = f + 1 := ⟨n - 1, by omega⟩
  have hu : ∀ (l : List (List ℚ)), updateCentroid l (f + 1) =
      centLoop l (mkRat 1 (f + 1)) (f + 1) (f + 1) 0 [] true := by
    intro l
    rw [show updateCentroid l (f + 1) = if f + 1 ≤ 31 then
        scaleVec (sumChunk l) (mkRat 1 (f + 1))
      else centLoop l (mkRat 1 (f + 1)) (f + 1) (f + 1) 0 [] true from rfl,
      if_neg (by omega)]
  simp only [Nat.add_sub_cancel]
  rw [hu, hu, centLoop_step31 _ _ f (f + 1) 0 [] (by omega),
    centLoop_step31 _ _ f (f + 1) 0 [] (by omega)]
  have h0 : (recs.set f v).getD 0 [] = recs.getD 0 [] :=
    getD_set_ne _ _ _ _ (by omega)
  have hch : chunkAdd (recs.set f v) 30 0 ((recs.set f v).getD 0 []) =
      chunkAdd recs 30 0 (recs.getD 0 []) := by
    rw [h0]
    exact chunkAdd_congr _ _ 30 0 _ (fun k hk1 hk2 => getD_set_ne _ _ _ _ (by omega))
  have hsnd : (chunkAdd recs 30 0 (recs.getD 0 [])).2 = 0 + 30 :=
    chunkAdd_snd recs 30 0 (recs.getD 0 [])
  rw [hch, hsnd]
  exact centLoop_congr _ _ _ f (f + 1 - 31) (0 + 30) _ false
    (fun k hk => getD_set_ne _ _ _ _ (by omega))

theorem eq_singleton_getD {l : List ℚ} (h : l.length = 1) : l = [l.getD 0 0] := by
  cases l with
  | nil => exact absurd h (by decide)
  | cons a t =>
    cases t with
    | nil => rfl
    | cons b t2 =>
      rw [List.length_cons, List.length_cons] at h
      exact absurd h (by omega)

/-- C3 counterexample: a filled population of capacity 2 whose active size
was shrunk to `CurPopSize = 1` (records with parameter vectors `[0]` and
`[8]`).  `updateCentroid` produces `[4]`, the mean of all `PopSize = 2`
records, not the mean `[0]` of the `CurPopSize = 1` active records. -/
theorem C3_counterexample :
    decrCurPopSize (Pop.mk 2 2 2 [(1, [0]), (2, [8])]) =
      Pop.mk 2 1 2 [(1, [0]), (2, [8])] ∧
    Pop.updateCentroid (Pop.mk 2 1 2 [(1, [0]), (2, [8])]) = [4] ∧
    ((((Pop.mk 2 1 2 [(1, [0]), (2, [8])]).recs.take
        (Pop.mk 2 1 2 [(1, [0]), (2, [8])]).curPopSize).map
        (fun r => r.2.getD 0 0)).sum /
      ((Pop.mk 2 1 2 [(1, [0]), (2, [8])]).curPopSize : ℚ)) = 0 ∧
    (4 : ℚ) ≠ 0 := by
  refine ⟨rfl, ?_, by norm_num, by norm_num⟩
  norm_num [Pop.updateCentroid, updateCentroid, sumChunk, addVec, scaleVec]

/-- C3 (amended): (i) in the single-pass path (`PopSize ≤ 31`, the batching
chunk threshold) every centroid coordinate equals the arithmetic mean of
that coordinate over all `PopSize` records — the claim's mean over
`CurPopSize` records only when `CurPopSize = PopSize`, since the code
divides by `PopSize` and iterates all `PopSize` slots.  (ii) The chunked
path (`PopSize > 31`) does not compute the `PopSize` mean either: its `j`
index is not re-advanced between chunks, so each chunk after the first
re-reads the record where the previous chunk stopped and the final record
slot is never read — the result is independent of the last record.
(iii) Concretely at `PopSize = 33` in one dimension: 32 records `[0]`
followed by `[33]` yield centroid `[0]` while the true mean is `1`; moving
the `33` to slot 30 (a chunk boundary) yields `[2]`, double-counting it. -/
theorem C3_updateCentroid_mean :
    (∀ (recs : List (List ℚ)) (n m : ℕ), 1 ≤ n → n ≤ 31 → recs.length = n →
      (∀ r ∈ recs, r.length = m) → ∀ i, i < m →
      (updateCentroid recs n).getD i 0 =
        (recs.map (fun r => r.getD i 0)).sum / (n : ℚ)) ∧
    (∀ (recs : List (List ℚ)) (n : ℕ) (v : List ℚ), 31 < n → recs.length = n →
      updateCentroid (recs.set (n - 1) v) n = updateCentroid recs n) ∧
    (updateCentroid (List.replicate 32 [(0 : ℚ)] ++ [[33]]) 33 = [0] ∧
      ((List.replicate 32 [(0 : ℚ)] ++ [[33]]).map
        (fun r : List ℚ => r.getD 0 0)).sum / ((33 : ℕ) : ℚ) = 1 ∧
      updateCentroid (List.replicate 30 [(0 : ℚ)] ++ [[33], [0], [0]]) 33 = [2]) := by
  refine ⟨?_, ?_, ?_, ?_, ?_⟩
  · intro recs n m hn hn31 hlen hall i hi
    have hne : recs ≠ [] := by
      intro h
      subst h
      simp at hlen
      omega
    have hcm : (mkRat 1 n : ℚ) = 1 / (n : ℚ) := by
      rw [Rat.mkRat_eq_div]
      norm_num
    rw [show updateCentroid recs n = if n ≤ 31 then
        scaleVec (sumChunk recs) (mkRat 1 n)
      else centLoop recs (mkRat 1 n) n n 0 [] true from rfl, if_pos hn31]
    obtain ⟨h1, h2⟩ := sumChunk_spec hi recs hne hall
    rw [scaleVec_getD (by omega), h2, hcm]
    ring
  · intro recs n v hn _
    exact updateCentroid_set_last recs n v hn
  · have e1 : updateCentroid (List.replicate 32 [(0 : ℚ)] ++ [[33]]) 33 =
        centLoop (List.replicate 32 [(0 : ℚ)] ++ [[33]]) (mkRat 1 33) 33 33 0 []
          true := by
      rw [show updateCentroid (List.replicate 32 [(0 : ℚ)] ++ [[33]]) 33 =
          if (33 : ℕ) ≤ 31 then
            scaleVec (sumChunk (List.replicate 32 [(0 : ℚ)] ++ [[33]])) (mkRat 1 33)
          else centLoop (List.replicate 32 [(0 : ℚ)] ++ [[33]]) (mkRat 1 33)
            33 33 0 [] true from rfl, if_neg (by norm_num)]
    obtain ⟨hl1, hg1⟩ := centLoop_spec_true (show (0 : ℕ) < 1 by decide)
      (List.replicate 32 [(0 : ℚ)] ++ [[33]]) (mkRat 1 33) 33 33 0 []
      (by decide) (by decide) (by decide)
    have hche : (readIdxs 33 33 0).map
        (fun k => ((List.replicate 32 [(0 : ℚ)] ++ [[33]]).getD k []).getD 0 0) =
        List.replicate 33 (0 : ℚ) := by decide
    rw [e1, eq_singleton_getD hl1, hg1, hche]
    norm_num
  · have hm1 : (List.replicate 32 [(0 : ℚ)] ++ [[33]]).map
        (fun r : List ℚ => r.getD 0 0) =
        List.replicate 32 (0 : ℚ) ++ [33] := by decide
    rw [hm1]
    norm_num [List.sum_append, List.sum_replicate]
  · have e2 : updateCentroid (List.replicate 30 [(0 : ℚ)] ++ [[33], [0], [0]]) 33 =
        centLoop (List.replicate 30 [(0 : ℚ)] ++ [[33], [0], [0]]) (mkRat 1 33)
          33 33 0 [] true := by
      rw [show updateCentroid (List.replicate 30 [(0 : ℚ)] ++ [[33], [0], [0]]) 33 =
          if (33 : ℕ) ≤ 31 then
            scaleVec (sumChunk (List.replicate 30 [(0 : ℚ)] ++ [[33], [0], [0]]))
              (mkRat 1 33)
          else centLoop (List.replicate 30 [(0 : ℚ)] ++ [[33], [0], [0]])
            (mkRat 1 33) 33 33 0 [] true from rfl, if_neg (by norm_num)]
    obtain ⟨hl2, hg2⟩ := centLoop_spec_true (show (0 : ℕ) < 1 by decide)
      (List.replicate 30 [(0 : ℚ)] ++ [[33], [0], [0]]) (mkRat 1 33) 33 33 0 []
      (by decide) (by decide) (by decide)
    have hche2 : (readIdxs 33 33 0).map
        (fun k => ((List.replicate 30 [(0 : ℚ)] ++ [[33], [0], [0]]).getD k
          []).getD 0 0) =
        List.replicate 30 (0 : ℚ) ++ [33, 33, 0] := by decide
    rw [e2, eq_singleton_getD hl2, hg2, hche2]
    norm_num [List.sum_append, List.sum_replicate, Rat.mkRat_eq_div]

/-- Witness for C3's amended theorem at a concrete two-record population. -/
theorem C3_updateCentroid_mean_witness :
    (updateCentroid [[1], [3]] 2).getD 0 0 =
      (([[1], [3]].map (fun r => r.getD 0 0)).sum) / ((2 : ℕ) : ℚ) :=
  C3_updateCentroid_mean.1 [[1], [3]] 2 1 (by decide) (by decide) (by decide)
    (by intro r hr; fin_cases hr <;> decide) 0 (by decide)

/-! ## Range wrapping (`wrapParam`, biteaux.h:1344-1395;
`wrapParamReal`, biteaux.h:2064-2095)

`wrapParam` has two compile-time branches: the integer branch (taken for the
fixed-point `int64_t` parameter type used by `CBiteOpt`, range
`[0, IntMantMult]` with `IntMantMult = 2^58`) and the floating branch (range
`[0, 1]`).  The random draw `rnd.get()` is a value `u ∈ [0,1)` and
`rnd.getRaw() & IntMantMask` is a value `mraw ∈ [0, IntMantMult)`; both are
passed in explicitly.  The C cast `(ptype)` of the non-negative `double`
expressions truncates toward zero, i.e. takes the floor. -/

def IntMantMult : ℤ := 2 ^ 58

/-- Integer branch of `CBitePop::wrapParam`. -/
def wrapParamInt (u : ℚ) (mraw : ℤ) (v : ℤ) : ℤ :=
  if v < 0 then
    if v > -IntMantMult then ⌊u * (-v : ℤ)⌋ else mraw
  else if v > IntMantMult then
    if v < 2 * IntMantMult then ⌊(IntMantMult : ℚ) - u * ((v : ℤ) - (IntMantMult : ℤ))⌋
    else mraw
  else v

/-- Floating branch of `CBitePop::wrapParam` (range `[0, 1]`). -/
def wrapParam01 (u : ℚ) (v : ℚ) : ℚ :=
  if v < 0 then
    if v > -1 then u * (-v) else u
  else if v > 1 then
    if v < 2 then 1 - u * (v - 1) else u
  else v

/-- `CBiteOptBase::wrapParamReal`: wraps into `[minv, maxv]` using the
difference value `dv = DiffValues[i]`. -/
def wrapParamReal (u : ℚ) (minv maxv dv v : ℚ) : ℚ :=
  if v < minv then
    if v > minv - dv then minv + u * (minv - v) else minv + u * dv
  else if v > maxv then
    if v < maxv + dv then maxv - u * (v - maxv) else maxv - u * dv
  else v

/-- A single application of the integer wrap lands in `[0, IntMantMult]`. -/
theorem wrapParamInt_mem (u : ℚ) (mraw v : ℤ) (hu0 : 0 ≤ u) (hu1 : u < 1)
    (hm0 : 0 ≤ mraw) (hm1 : mraw < IntMantMult) :
    0 ≤ wrapParamInt u mraw v ∧ wrapParamInt u mraw v ≤ IntMantMult := by
  have hM : (0 : ℤ) < IntMantMult := by decide
  have hMq : (0 : ℚ) < (IntMantMult : ℤ) := by exact_mod_cast hM
  rw [wrapParamInt]
  split
  · next hv =>
    have hvq : (v : ℚ) < 0 := by exact_mod_cast hv
    split
    · next hv2 =>
      have hv2q : -((IntMantMult : ℤ) : ℚ) < (v : ℚ) := by exact_mod_cast hv2
      constructor
      · rw [Int.le_floor]
        push_cast
        nlinarith [mul_nonneg hu0 (show (0 : ℚ) ≤ -(v : ℚ) by linarith)]
      · have hlt : ⌊u * (-v : ℤ)⌋ < IntMantMult := by
          rw [Int.floor_lt]
          push_cast
          nlinarith [mul_lt_mul_of_pos_right hu1 (show (0 : ℚ) < -(v : ℚ) by linarith)]
        omega
    · exact ⟨hm0, by omega⟩
  · next hv =>
    have hvq : (0 : ℚ) ≤ (v : ℚ) := by exact_mod_cast not_lt.1 hv
    split
    · next hv2 =>
      have hv2q : ((IntMantMult : ℤ) : ℚ) < (v : ℚ) := by exact_mod_cast hv2
      split
      · next hv3 =>
        have hv3q : (v : ℚ) < 2 * ((IntMantMult : ℤ) : ℚ) := by exact_mod_cast hv3
        constructor
        · rw [Int.le_floor]
          push_cast
          nlinarith [mul_lt_mul_of_pos_right hu1
            (show (0 : ℚ) < (v : ℚ) - ((IntMantMult : ℤ) : ℚ) by linarith)]
        · calc ⌊(IntMantMult : ℚ) - u * ((v : ℤ) - (IntMantMult : ℤ))⌋
              ≤ ⌊(IntMantMult : ℚ)⌋ := by
                refine Int.floor_le_floor ?_
                push_cast
                nlinarith [mul_nonneg hu0
                  (show (0 : ℚ) ≤ (v : ℚ) - ((IntMantMult : ℤ) : ℚ) by linarith)]
            _ = IntMantMult := Int.floor_intCast _
      · exact ⟨hm0, by omega⟩
    · next hv2 => exact ⟨by omega, by omega⟩

/-- A value already in `[0, IntMantMult]` is returned unchanged. -/
theorem wrapParamInt_id (u : ℚ) (mraw v : ℤ) (h0 : 0 ≤ v) (h1 : v ≤ IntMantMult) :
    wrapParamInt u mraw v = v := by
  rw [wrapParamInt, if_neg (by omega), if_neg (by omega)]

/-- A single application of the floating wrap lands in `[0, 1]`. -/
theorem wrapParam01_mem (u v : ℚ) (hu0 : 0 ≤ u) (hu1 : u < 1) :
    0 ≤ wrapParam01 u v ∧ wrapParam01 u v ≤ 1 := by
  rw [wrapParam01]
  split
  · next hv =>
    split
    · next hv2 => constructor <;> nlinarith
    · exact ⟨hu0, le_of_lt hu1⟩
  · next hv =>
    split
    · next hv2 =>
      split
      · next hv3 => constructor <;> nlinarith
      · exact ⟨hu0, le_of_lt hu1⟩
    · next hv2 => exact ⟨by linarith, by linarith⟩

/-- A value already in `[0, 1]` is returned unchanged. -/
theorem wrapParam01_id (u v : ℚ) (h0 : 0 ≤ v) (h1 : v ≤ 1) :
    wrapParam01 u v = v := by
  rw [wrapParam01, if_neg (by linarith), if_neg (by linarith)]

/-- A single application of the real-space wrap lands in `[minv, maxv]`;
`0 ≤ dv ≤ maxv - minv` holds for both instantiations of `DiffValues`
(`maxv - minv` for the real-typed optimizers and `(maxv - minv) * 2^-58`
for the fixed-point one). -/
theorem wrapParamReal_mem (u minv maxv dv v : ℚ) (hu0 : 0 ≤ u) (hu1 : u < 1)
    (hd0 : 0 ≤ dv) (hd1 : dv ≤ maxv - minv) :
    minv ≤ wrapParamReal u minv maxv dv v ∧ wrapParamReal u minv maxv dv v ≤ maxv := by
  rw [wrapParamReal]
  split
  · next hv =>
    split
    · next hv2 => constructor <;> nlinarith
    · constructor <;> nlinarith
  · next hv =>
    split
    · next hv2 =>
      split
      · next hv3 => constructor <;> nlinarith
      · constructor <;> nlinarith
    · next hv2 => exact ⟨by linarith, by linarith⟩

/-- A value already in `[minv, maxv]` is returned unchanged. -/
theorem wrapParamReal_id (u minv maxv dv v : ℚ) (h0 : minv ≤ v) (h1 : v ≤ maxv) :
    wrapParamReal u minv maxv dv v = v := by
  rw [wrapParamReal, if_neg (by linarith), if_neg (by linarith)]

/-- C5: the range wrap is idempotent after one application, in all three
code paths (fixed-point `wrapParam`, floating `wrapParam`, and
`wrapParamReal`): values already inside the range are returned unchanged;
any single application (for any random draws) lands inside the range; and a
second application (with any further draws) returns the first result
unchanged — no multi-application drift. -/
theorem C5_wrap_idempotent (u u2 : ℚ) (mraw mraw2 : ℤ) (minv maxv dv : ℚ)
    (hu0 : 0 ≤ u) (hu1 : u < 1) (hv0 : 0 ≤ u2) (hv1 : u2 < 1)
    (hm0 : 0 ≤ mraw) (hm1 : mraw < IntMantMult)
    (hn0 : 0 ≤ mraw2) (hn1 : mraw2 < IntMantMult)
    (hd0 : 0 ≤ dv) (hd1 : dv ≤ maxv - minv) :
    (∀ v : ℤ, 0 ≤ v → v ≤ IntMantMult → wrapParamInt u mraw v = v) ∧
    (∀ v : ℤ, 0 ≤ wrapParamInt u mraw v ∧ wrapParamInt u mraw v ≤ IntMantMult) ∧
    (∀ v : ℤ, wrapParamInt u2 mraw2 (wrapParamInt u mraw v) = wrapParamInt u mraw v) ∧
    (∀ v : ℚ, 0 ≤ v → v ≤ 1 → wrapParam01 u v = v) ∧
    (∀ v : ℚ, 0 ≤ wrapParam01 u v ∧ wrapParam01 u v ≤ 1) ∧
    (∀ v : ℚ, wrapParam01 u2 (wrapParam01 u v) = wrapParam01 u v) ∧
    (∀ v : ℚ, minv ≤ v → v ≤ maxv → wrapParamReal u minv maxv dv v = v) ∧
    (∀ v : ℚ, minv ≤ wrapParamReal u minv maxv dv v ∧
      wrapParamReal u minv maxv dv v ≤ maxv) ∧
    (∀ v : ℚ, wrapParamReal u2 minv maxv dv (wrapParamReal u minv maxv dv v) =
      wrapParamReal u minv maxv dv v) := by
  refine ⟨fun v => wrapParamInt_id u mraw v,
    fun v => wrapParamInt_mem u mraw v hu0 hu1 hm0 hm1,
    fun v => ?_,
    fun v => wrapParam01_id u v,
    fun v => wrapParam01_mem u v hu0 hu1,
    fun v => ?_,
    fun v => wrapParamReal_id u minv maxv dv v,
    fun v => wrapParamReal_mem u minv maxv dv v hu0 hu1 hd0 hd1,
    fun v => ?_⟩
  · obtain ⟨h0, h1⟩ := wrapParamInt_mem u mraw v hu0 hu1 hm0 hm1
    exact wrapParamInt_id u2 mraw2 _ h0 h1
  · obtain ⟨h0, h1⟩ := wrapParam01_mem u v hu0 hu1
    exact wrapParam01_id u2 _ h0 h1
  · obtain ⟨h0, h1⟩ := wrapParamReal_mem u minv maxv dv v hu0 hu1 hd0 hd1
    exact wrapParamReal_id u2 minv maxv dv _ h0 h1

/-- Witness for C5 at concrete draws, bounds and an in-range value. -/
theorem C5_wrap_idempotent_witness :
    wrapParamInt (mkRat 1 2) 7 5 = 5 := by
  refine (C5_wrap_idempotent (mkRat 1 2) (mkRat 1 4) 7 9 0 1 1
    (by norm_num) (by norm_num) (by norm_num) (by norm_num)
    (by decide) (by decide) (by decide) (by decide)
    (by norm_num) (by norm_num)).1 5 (by decide) (by decide)

/-! ## Caller-facing binding layer (`minimize_func`, biteopt_py_ext.cpp)

After marshalling the two bounds sequences into vectors, `minimize_func`
validates them and either raises a `TypeError` (returning before
`biteopt_minimize` is called, hence before any optimizer instance exists or
the objective is invoked) or enters `biteopt_minimize` with
`N = lower.size()`.  Marshalling/type errors of the host objects are outside
this model. -/

inductive BindResult where
  | error : BindResult
  | proceed (n : ℕ) : BindResult
deriving DecidableEq

/-- The validation logic of `minimize_func` (biteopt_py_ext.cpp:82-113). -/
def minimizeFunc (lower upper : List ℚ) : BindResult :=
  if lower.length ≠ upper.length then .error
  else if (lower.zip upper).any (fun p => decide (p.1 > p.2)) then .error
  else .proceed lower.length

/-- C9 counterexample: with two empty bounds lists the dimension is
`N = 0 ≤ 0`, yet `minimize_func` performs no `N ≤ 0` check and proceeds to
construct the optimizer and run it, instead of signalling an error. -/
theorem C9_counterexample :
    minimizeFunc [] [] = BindResult.proceed 0 ∧
    (0 : ℤ) ≤ 0 ∧ BindResult.proceed 0 ≠ BindResult.error := by
  exact ⟨rfl, by decide, by decide⟩

/-- C9 (amended): the binding layer rejects a length mismatch between the
bounds arrays and any coordinate with `lower[i] > upper[i]` by signalling an
error before any optimizer instance is constructed and before the objective
is called; it does not check `N ≤ 0` — with well-formed bounds it always
proceeds with `N = lower.length`, including `N = 0` for empty lists (a
negative `N` cannot arise since `N` is the marshalled list's length). -/
theorem C9_binding_rejects (lower upper : List ℚ) :
    (lower.length ≠ upper.length → minimizeFunc lower upper = .error) ∧
    ((∃ i, i < lower.length ∧ i < upper.length ∧
        lower.getD i 0 > upper.getD i 0) → minimizeFunc lower upper = .error) ∧
    (lower.length = upper.length →
      (∀ i, i < lower.length → lower.getD i 0 ≤ upper.getD i 0) →
      minimizeFunc lower upper = .proceed lower.length) := by
  refine ⟨fun hm => ?_, fun hbad => ?_, fun hlen hok => ?_⟩
  · rw [minimizeFunc, if_pos hm]
  · rw [minimizeFunc]
    by_cases hm : lower.length ≠ upper.length
    · rw [if_pos hm]
    · rw [if_neg hm]
      obtain ⟨i, hi1, hi2, hgt⟩ := hbad
      have hmem : (lower.getD i 0, upper.getD i 0) ∈ lower.zip upper := by
        have hz : i < (lower.zip upper).length := by
          rw [List.length_zip]
          omega
        have : (lower.zip upper)[i] = (lower.getD i 0, upper.getD i 0) := by
          rw [List.getElem_zip, List.getD_eq_getElem lower 0 hi1,
            List.getD_eq_getElem upper 0 hi2]
        rw [← this]
        exact List.getElem_mem hz
      rw [if_pos ?_]
      refine List.any_eq_true.2 ⟨_, hmem, by simpa using hgt⟩
  · rw [minimizeFunc, if_neg (by omega), if_neg ?_]
    rw [List.any_eq_true]
    push_neg
    intro x hx
    obtain ⟨i, hi, hxi⟩ := List.mem_iff_getElem.1 hx
    rw [List.length_zip] at hi
    have := hok i (by omega)
    rw [List.getElem_zip] at hxi
    subst hxi
    simp only [ne_eq, decide_eq_true_eq, not_lt]
    rw [List.getD_eq_getElem lower 0 (by omega),
      List.getD_eq_getElem upper 0 (by omega)] at this
    exact this

/-- Witness for C9's amended theorem: a length mismatch is rejected. -/
theorem C9_binding_rejects_witness :
    minimizeFunc [0] [] = BindResult.error :=
  (C9_binding_rejects [0] []).1 (by decide)

/-! ## Nearest parallel population (`CBiteParPops`, biteaux.h:1525-1663)

`calcCentroidDists` computes, in batches of at most 4 centroids, the squared
Euclidean distance of the candidate to every parallel population's centroid
(within a batch each accumulator `s0..s3` is the plain per-centroid sum, so
a batch contributes exactly the per-centroid distances, in order).
`getMinDistParPop` then scans the distances with `if (s[i] <= d)`. -/

/-- The batch loop of `calcCentroidDists`, with fuel (each iteration
consumes at least one centroid). -/
def calcCentroidDistsGo : ℕ → List (List ℚ) → List ℚ → List ℚ
  | 0, _, _ => []
  | fuel + 1, cents, v =>
    if cents.isEmpty then []
    else ((cents.take 4).map (fun c => sqDist c v)) ++
      calcCentroidDistsGo fuel (cents.drop 4) v

/-- `CBiteParPops::calcCentroidDists`. -/
def calcCentroidDists (cents : List (List ℚ)) (v : List ℚ) : List ℚ :=
  calcCentroidDistsGo cents.length cents v

/-- The scan loop of `getMinDistParPop` (biteaux.h:1649-1660): `pp = 0`,
`d = s[0]`, then for `i = 1 .. n-1`, `if (s[i] <= d) { pp = i; d = s[i] }`. -/
def minScan (s : List ℚ) : ℕ × ℚ :=
  (List.range' 1 (s.length - 1)).foldl
    (fun acc i => if s.getD i 0 ≤ acc.2 then (i, s.getD i 0) else acc)
    (0, s.getD 0 0)

/-- `CBiteParPops::getMinDistParPop` (the `Cost` argument is unused by the
source and omitted; the function never returns a negative index). -/
def getMinDistParPop (cents : List (List ℚ)) (v : List ℚ) : ℕ :=
  (minScan (calcCentroidDists cents v)).1

theorem calcCentroidDistsGo_eq (v : List ℚ) :
    ∀ (fuel : ℕ) (cents : List (List ℚ)), cents.length ≤ fuel →
      calcCentroidDistsGo fuel cents v = cents.map (fun c => sqDist c v) := by
  intro fuel
  induction fuel with
  | zero =>
    intro cents hf
    have : cents = [] := List.length_eq_zero.1 (by omega)
    subst this
    rfl
  | succ n ih =>
    intro cents hf
    rw [calcCentroidDistsGo]
    by_cases hemp : cents.isEmpty
    · have : cents = [] := List.isEmpty_iff.1 hemp
      subst this
      simp
    · have hne : cents ≠ [] := by simpa [List.isEmpty_iff] using hemp
      have h1 : 1 ≤ cents.length := by
        cases cents with
        | nil => exact absurd rfl hne
        | cons a t => simp
      rw [if_neg hemp, ih (cents.drop 4) (by rw [List.length_drop]; omega),
        ← List.map_append, List.take_append_drop]

/-- Invariant carried by the scan loop: after processing indices `1..t`, the
accumulator holds an index that attains the minimum over `[0, t]` and is the
largest index to do so. -/
def ScanInv (s : List ℚ) (t : ℕ) (acc : ℕ × ℚ) : Prop :=
  acc.1 ≤ t ∧ acc.2 = s.getD acc.1 0 ∧
  (∀ i, i ≤ t → acc.2 ≤ s.getD i 0) ∧
  (∀ j, acc.1 < j → j ≤ t → s.getD acc.1 0 < s.getD j 0)

theorem minScan_fold_spec (s : List ℚ) :
    ∀ (n t : ℕ) (acc : ℕ × ℚ), ScanInv s t acc →
      ScanInv s (t + n) ((List.range' (t + 1) n).foldl
        (fun acc i => if s.getD i 0 ≤ acc.2 then (i, s.getD i 0) else acc) acc) := by
  intro n
  induction n with
  | zero => intro t acc h; simpa using h
  | succ m ih =>
    intro t acc h
    obtain ⟨h1, h2, h3, h4⟩ := h
    rw [List.range'_succ, List.foldl_cons]
    have hnext : ScanInv s (t + 1)
        (if s.getD (t + 1) 0 ≤ acc.2 then (t + 1, s.getD (t + 1) 0) else acc) := by
      split
      · next hle =>
        refine ⟨le_refl _, rfl, fun i hi => ?_, fun j hj1 hj2 => by omega⟩
        rcases Nat.lt_or_ge i (t + 1) with hi' | hi'
        · exact le_trans hle (h3 i (by omega))
        · have : i = t + 1 := by omega
          subst this
          exact le_refl _
      · next hgt =>
        have hgt' : acc.2 < s.getD (t + 1) 0 := lt_of_not_le hgt
        refine ⟨by omega, h2, fun i hi => ?_, fun j hj1 hj2 => ?_⟩
        · rcases Nat.lt_or_ge i (t + 1) with hi' | hi'
          · exact h3 i (by omega)
          · have : i = t + 1 := by omega
            subst this
            exact le_of_lt hgt'
        · rcases Nat.lt_or_ge j (t + 1) with hj' | hj'
          · exact h4 j hj1 (by omega)
          · have : j = t + 1 := by omega
            subst this
            rw [← h2]
            exact hgt'
    have := ih (t + 1) _ hnext
    rwa [show t + 1 + m = t + (m + 1) by omega] at this

theorem minScan_spec (s : List ℚ) (hne : s ≠ []) :
    (minScan s).1 < s.length ∧
    (∀ i, i < s.length → s.getD (minScan s).1 0 ≤ s.getD i 0) ∧
    (∀ j, (minScan s).1 < j → j < s.length →
      s.getD (minScan s).1 0 < s.getD j 0) := by
  have hlen : 1 ≤ s.length := by
    cases s with
    | nil => exact absurd rfl hne
    | cons a t => simp
  have h0 : ScanInv s 0 (0, s.getD 0 0) :=
    ⟨le_refl _, rfl, fun i hi => by rw [Nat.le_zero.1 hi], fun j hj1 hj2 => by omega⟩
  have := minScan_fold_spec s (s.length - 1) 0 (0, s.getD 0 0) h0
  simp only [Nat.zero_add] at this
  obtain ⟨h1, h2, h3, h4⟩ := this
  rw [minScan]
  refine ⟨by omega, fun i hi => ?_, fun j hj1 hj2 => ?_⟩
  · rw [← h2]
    exact h3 i (by omega)
  · exact h4 j hj1 (by omega)

/-- C7 counterexample: two parallel populations with identical centroids
`[0]` tie at distance 0 from the candidate `[0]`; the claim requires the
lowest tied index 0, but `getMinDistParPop` returns 1 (the `<=` comparison
keeps overwriting on ties). -/
theorem C7_counterexample :
    sqDist [(0 : ℚ)] [0] = sqDist [(0 : ℚ)] [0] ∧
    getMinDistParPop [[(0 : ℚ)], [0]] [0] = 1 ∧ (1 : ℕ) ≠ 0 := by
  refine ⟨rfl, ?_, by decide⟩
  norm_num [getMinDistParPop, calcCentroidDists, calcCentroidDistsGo, minScan,
    sqDist, List.range']

/-- C7 (amended): for a nonempty bank of parallel populations,
`getMinDistParPop` returns the index of a population whose centroid has
minimal squared Euclidean distance to the candidate, the batched (groups of
up to 4) distance computation equals the plain per-centroid distances, and
ties favor the **highest** such index (the returned index is the greatest
minimizer), not the lowest as claimed. -/
theorem C7_getMinDistParPop_min (cents : List (List ℚ)) (v : List ℚ)
    (hne : cents ≠ []) :
    calcCentroidDists cents v = cents.map (fun c => sqDist c v) ∧
    getMinDistParPop cents v < cents.length ∧
    (∀ i, i < cents.length →
      sqDist (cents.getD (getMinDistParPop cents v) []) v ≤
        sqDist (cents.getD i []) v) ∧
    (∀ j, getMinDistParPop cents v < j → j < cents.length →
      sqDist (cents.getD (getMinDistParPop cents v) []) v <
        sqDist (cents.getD j []) v) := by
  have heq : calcCentroidDists cents v = cents.map (fun c => sqDist c v) :=
    calcCentroidDistsGo_eq v cents.length cents (le_refl _)
  have hsne : calcCentroidDists cents v ≠ [] := by
    rw [heq]
    simpa using hne
  have hslen : (calcCentroidDists cents v).length = cents.length := by
    rw [heq, List.length_map]
  have hgetD : ∀ i, i < cents.length →
      (calcCentroidDists cents v).getD i 0 = sqDist (cents.getD i []) v := by
    intro i hi
    rw [heq, List.getD_eq_getElem _ 0 (by rw [List.length_map]; omega),
      List.getElem_map, List.getD_eq_getElem cents [] hi]
  obtain ⟨h1, h2, h3⟩ := minScan_spec (calcCentroidDists cents v) hsne
  rw [hslen] at h1
  refine ⟨heq, h1, fun i hi => ?_, fun j hj1 hj2 => ?_⟩
  · have := h2 i (by omega)
    rwa [hgetD _ h1, hgetD _ hi] at this
  · have := h3 j hj1 (by omega)
    rwa [hgetD _ h1, hgetD _ hj2] at this

/-- Witness for C7's amended theorem at two distinct centroids. -/
theorem C7_getMinDistParPop_min_witness :
    getMinDistParPop [[(0 : ℚ)], [1]] [0] < 2 :=
  (C7_getMinDistParPop_min [[(0 : ℚ)], [1]] [0] (by decide)).2.1

/-! ## Adaptive selector (`CBiteSelBase`, biteaux.h:402-622)

`SlotCount = 5` and `SparseMul = 5` (set by `reset`), so each of the five
slot vectors holds `CountSp = Count * 5` replicated choice indices.  The
random draws consumed by `reset` (the swap-mixing index pairs and the
trailing `select`), by `select` (`getPowInt` results, which always lie in
`[0, SlotCount)` resp. `[0, CountSp)`), and the success score `v ∈ [0,1]`
of `incr` are explicit arguments. -/

structure SelState where
  count : ℕ
  slots : List (List ℕ)
  sel : ℕ
  selp : ℕ
  slot : ℕ

/-- A freshly filled slot vector: `SparseMul = 5` replicas of each choice
index `0 .. Count-1`, in order (biteaux.h:460-469). -/
def selInitSlot (count : ℕ) : List ℕ :=
  ((List.range count).map (List.replicate 5 ·)).flatten

/-- One randomized swap of `reset`'s mixing loop (biteaux.h:473-481). -/
def swapEntries (l : List ℕ) (i j : ℕ) : List ℕ :=
  (l.set i (l.getD j 0)).set j (l.getD i 0)

/-- The `CountSp * 5` swap-mixing passes applied to one slot vector. -/
def mixSlot (l : List ℕ) (sw : List (ℕ × ℕ)) : List ℕ :=
  sw.foldl (fun acc p => swapEntries acc p.1 p.2) l

/-- `CBiteSelBase::select` (biteaux.h:565-574): `d1` and `d2` are the
`getPowInt` draws for the slot and the position. -/
def selSelect (st : SelState) (d1 d2 : ℕ) : SelState :=
  { st with slot := d1, selp := d2, sel := (st.slots.getD d1 []).getD d2 0 }

/-- `CBiteSelBase::reset` (biteaux.h:435-486): rebuilds the five slot
vectors as replicated-and-shuffled index ranges and ends with a `select`. -/
def selReset (count : ℕ) (sws : List (List (ℕ × ℕ))) (d1 d2 : ℕ) : SelState :=
  selSelect
    { count := count,
      slots := (List.range 5).map (fun j => mixSlot (selInitSlot count) (sws.getD j [])),
      sel := 0, selp := 0, slot := 0 } d1 d2

/-- Swap of two whole slot vectors (the slot-migration step). -/
def swapSlotLists (slots : List (List ℕ)) (i j : ℕ) : List (List ℕ) :=
  (slots.set i (slots.getD j [])).set j (slots.getD i [])

/-- The move-to-front rotation of `incr` (biteaux.h:509-524): with
`np = Selp - dpn`, positions `np+1 .. Selp` receive the old entries
`np .. Selp-1` and position `np` receives the remembered choice `Sel`. -/
def rotMoveFront (l : List ℕ) (selp dpn sel : ℕ) : List ℕ :=
  let np := selp - dpn
  l.take np ++ [sel] ++ (l.drop np).take dpn ++ l.drop (selp + 1)

/-- Replace the slot-vector array of a selector state. -/
def setSlots (st : SelState) (s : List (List ℕ)) : SelState :=
  { st with slots := s }

/-- `CBiteSelBase::incr` (biteaux.h:505-532): `dp = (int)(-Selp*v*v)` is
`-⌊Selp*v²⌋` (truncation toward zero of a non-positive value), so the
rotation happens iff `dpn = ⌊Selp*v²⌋ ≥ 1`; then the slot vector migrates
one step toward the best slot. -/
def selIncr (st : SelState) (v : ℚ) : SelState :=
  let dpn := (⌊(st.selp : ℚ) * v * v⌋).toNat
  let rot := rotMoveFront (st.slots.getD st.slot []) st.selp dpn st.sel
  let st1 := if dpn = 0 then st else { st with slots := st.slots.set st.slot rot }
  if st.slot > 0 then { st1 with slots := swapSlotLists st1.slots st.slot (st.slot - 1) }
  else st1

/-- `CBiteSelBase::decr` (biteaux.h:541-555): demote the chosen entry one
position toward the back (when not already last, `CountSp1 = Count*5 - 1`),
then migrate the slot vector one step toward the worst slot. -/
def selDecr (st : SelState) : SelState :=
  let l := st.slots.getD st.slot []
  let demoted := (l.set st.selp (l.getD (st.selp + 1) 0)).set (st.selp + 1) st.sel
  let st1 := if st.selp < st.count * 5 - 1 then
    { st with slots := st.slots.set st.slot demoted } else st
  if st.slot < 5 - 1 then { st1 with slots := swapSlotLists st1.slots st.slot (st.slot + 1) }
  else st1

inductive SelOp where
  | select (d1 d2 : ℕ)
  | incr (v : ℚ)
  | decr

def selStep (st : SelState) : SelOp → SelState
  | .select d1 d2 => selSelect st d1 d2
  | .incr v => selIncr st v
  | .decr => selDecr st

def selRun (st : SelState) (ops : List SelOp) : SelState :=
  ops.foldl selStep st

/-- Selector invariant: every entry of every slot vector is a choice index
inside `[0, Count)`, and so is the remembered last choice. -/
def SelInv (count : ℕ) (st : SelState) : Prop :=
  st.sel < count ∧ ∀ l ∈ st.slots, ∀ x ∈ l, x < count

theorem getD_entry_lt {count : ℕ} {l : List ℕ} (hc : 0 < count)
    (hall : ∀ x ∈ l, x < count) (i : ℕ) : l.getD i 0 < count := by
  rcases Nat.lt_or_ge i l.length with h | h
  · rw [List.getD_eq_getElem l 0 h]
    exact hall _ (List.getElem_mem h)
  · rw [List.getD_eq_default l 0 h]
    exact hc

theorem swapEntries_entries {count : ℕ} {l : List ℕ} (hc : 0 < count)
    (hall : ∀ x ∈ l, x < count) (i j : ℕ) :
    ∀ x ∈ swapEntries l i j, x < count := by
  intro x hx
  rcases List.mem_or_eq_of_mem_set hx with hx' | rfl
  · rcases List.mem_or_eq_of_mem_set hx' with hx'' | rfl
    · exact hall x hx''
    · exact getD_entry_lt hc hall j
  · exact getD_entry_lt hc hall i

theorem mixSlot_entries {count : ℕ} (hc : 0 < count) :
    ∀ (sw : List (ℕ × ℕ)) (l : List ℕ), (∀ x ∈ l, x < count) →
      ∀ x ∈ mixSlot l sw, x < count := by
  intro sw
  induction sw with
  | nil => intro l hall; exact hall
  | cons p ps ih =>
    intro l hall
    exact ih _ (swapEntries_entries hc hall p.1 p.2)

theorem selInitSlot_entries (count : ℕ) :
    ∀ x ∈ selInitSlot count, x < count := by
  intro x hx
  rw [selInitSlot, List.mem_flatten] at hx
  obtain ⟨l, hl, hxl⟩ := hx
  rw [List.mem_map] at hl
  obtain ⟨i, hi, rfl⟩ := hl
  rw [List.mem_range] at hi
  rw [List.eq_of_mem_replicate hxl]
  exact hi

theorem getD_slot_entries {count : ℕ} {slots : List (List ℕ)}
    (hall : ∀ l ∈ slots, ∀ x ∈ l, x < count) (i : ℕ) :
    ∀ x ∈ slots.getD i [], x < count := by
  rcases Nat.lt_or_ge i slots.length with h | h
  · rw [List.getD_eq_getElem slots [] h]
    exact hall _ (List.getElem_mem h)
  · rw [List.getD_eq_default slots [] h]
    intro x hx
    simp at hx

theorem swapSlotLists_entries {count : ℕ} {slots : List (List ℕ)}
    (hall : ∀ l ∈ slots, ∀ x ∈ l, x < count) (i j : ℕ) :
    ∀ l ∈ swapSlotLists slots i j, ∀ x ∈ l, x < count := by
  intro l hl
  rcases List.mem_or_eq_of_mem_set hl with hl' | rfl
  · rcases List.mem_or_eq_of_mem_set hl' with hl'' | rfl
    · exact hall l hl''
    · exact getD_slot_entries hall j
  · exact getD_slot_entries hall i

theorem selSelect_inv {count : ℕ} {st : SelState} (hc : 0 < count)
    (h : SelInv count st) (d1 d2 : ℕ) : SelInv count (selSelect st d1 d2) := by
  refine ⟨getD_entry_lt hc (getD_slot_entries h.2 d1) d2, h.2⟩

theorem rotMoveFront_entries {count : ℕ} {l : List ℕ} (hall : ∀ x ∈ l, x < count)
    {sel : ℕ} (hsel : sel < count) (selp dpn : ℕ) :
    ∀ x ∈ rotMoveFront l selp dpn sel, x < count := by
  intro x hx
  rw [rotMoveFront] at hx
  simp only [List.append_assoc, List.mem_append, List.mem_singleton] at hx
  rcases hx with hx | hx | hx | hx
  · exact hall x (List.mem_of_mem_take hx)
  · subst hx; exact hsel
  · exact hall x (List.mem_of_mem_drop (List.mem_of_mem_take hx))
  · exact hall x (List.mem_of_mem_drop hx)

theorem selIncr_inv {count : ℕ} {st : SelState} (h : SelInv count st) (v : ℚ) :
    SelInv count (selIncr st v) := by
  obtain ⟨hsel, hall⟩ := h
  have hform : selIncr st v =
      (if (⌊(st.selp : ℚ) * v * v⌋).toNat = 0 then
        (if st.slot > 0 then
          setSlots st (swapSlotLists st.slots st.slot (st.slot - 1))
         else st)
       else
        (if st.slot > 0 then
          setSlots st (swapSlotLists
            (st.slots.set st.slot (rotMoveFront (st.slots.getD st.slot [])
              st.selp (⌊(st.selp : ℚ) * v * v⌋).toNat st.sel))
            st.slot (st.slot - 1))
         else setSlots st (st.slots.set st.slot
            (rotMoveFront (st.slots.getD st.slot [])
              st.selp (⌊(st.selp : ℚ) * v * v⌋).toNat st.sel)))) := by
    rw [selIncr]
    by_cases hdpn : (⌊(st.selp : ℚ) * v * v⌋).toNat = 0
    · simp only [hdpn, if_pos rfl]
      rfl
    · simp only [if_neg hdpn]
      rfl
  rw [hform]
  have hrotall : ∀ l ∈ st.slots.set st.slot (rotMoveFront (st.slots.getD st.slot [])
      st.selp (⌊(st.selp : ℚ) * v * v⌋).toNat st.sel), ∀ x ∈ l, x < count := by
    intro l hl
    rcases List.mem_or_eq_of_mem_set hl with hl' | rfl
    · exact hall l hl'
    · exact rotMoveFront_entries (getD_slot_entries hall st.slot) hsel _ _
  split
  · split
    · exact ⟨hsel, swapSlotLists_entries hall _ _⟩
    · exact ⟨hsel, hall⟩
  · split
    · exact ⟨hsel, swapSlotLists_entries hrotall _ _⟩
    · exact ⟨hsel, hrotall⟩

theorem selDecr_inv {count : ℕ} {st : SelState} (hc : 0 < count)
    (h : SelInv count st) : SelInv count (selDecr st) := by
  obtain ⟨hsel, hall⟩ := h
  have hform : selDecr st =
      (if st.selp < st.count * 5 - 1 then
        (if st.slot < 5 - 1 then
          setSlots st (swapSlotLists
            (st.slots.set st.slot (((st.slots.getD st.slot []).set st.selp
                ((st.slots.getD st.slot []).getD (st.selp + 1) 0)).set
              (st.selp + 1) st.sel))
            st.slot (st.slot + 1))
         else setSlots st (st.slots.set st.slot
            (((st.slots.getD st.slot []).set st.selp
                ((st.slots.getD st.slot []).getD (st.selp + 1) 0)).set
              (st.selp + 1) st.sel)))
       else
        (if st.slot < 5 - 1 then
          setSlots st (swapSlotLists st.slots st.slot (st.slot + 1))
         else st)) := by
    rw [selDecr]
    by_cases hselp : st.selp < st.count * 5 - 1
    · simp only [hselp, if_pos rfl]
      rfl
    · simp only [if_neg hselp]
      rfl
  rw [hform]
  have hdemall : ∀ l ∈ st.slots.set st.slot (((st.slots.getD st.slot []).set st.selp
      ((st.slots.getD st.slot []).getD (st.selp + 1) 0)).set
      (st.selp + 1) st.sel), ∀ x ∈ l, x < count := by
    intro l hl
    rcases List.mem_or_eq_of_mem_set hl with hl' | rfl
    · exact hall l hl'
    · intro x hx
      rcases List.mem_or_eq_of_mem_set hx with hx' | rfl
      · rcases List.mem_or_eq_of_mem_set hx' with hx'' | rfl
        · exact getD_slot_entries hall st.slot x hx''
        · exact getD_entry_lt hc (getD_slot_entries hall st.slot) _
      · exact hsel
  split
  · split
    · exact ⟨hsel, swapSlotLists_entries hdemall _ _⟩
    · exact ⟨hsel, hdemall⟩
  · split
    · exact ⟨hsel, swapSlotLists_entries hall _ _⟩
    · exact ⟨hsel, hall⟩

theorem selStep_inv {count : ℕ} {st : SelState} (hc : 0 < count)
    (h : SelInv count st) (op : SelOp) : SelInv count (selStep st op) := by
  cases op with
  | select d1 d2 => exact selSelect_inv hc h d1 d2
  | incr v => exact selIncr_inv h v
  | decr => exact selDecr_inv hc h

theorem selReset_inv (count : ℕ) (hc : 0 < count)
    (sws : List (List (ℕ × ℕ))) (d1 d2 : ℕ) :
    SelInv count (selReset count sws d1 d2) := by
  rw [selReset]
  refine selSelect_inv hc ⟨hc, ?_⟩ d1 d2
  intro l hl
  rw [List.mem_map] at hl
  obtain ⟨j, _, rfl⟩ := hl
  exact mixSlot_entries hc _ _ (selInitSlot_entries count)

/-- C6: after `reset` and any sequence of `select`, `incr` and `decr` calls
(for arbitrary random draws and success scores), the remembered choice is
inside `[0, Count)`, and every further `select` returns a choice index
inside `[0, Count)`: the slot vectors are built as replicated index ranges
`[0, Count)` and every later update only rearranges (or re-inserts) in-range
entries. -/
theorem C6_selector_range (count : ℕ) (hc : 1 ≤ count)
    (sws : List (List (ℕ × ℕ))) (d1 d2 : ℕ) (ops : List SelOp) :
    (selRun (selReset count sws d1 d2) ops).sel < count ∧
    ∀ e1 e2, (selSelect (selRun (selReset count sws d1 d2) ops) e1 e2).sel < count := by
  have hinv : SelInv count (selRun (selReset count sws d1 d2) ops) := by
    rw [selRun]
    have h0 := selReset_inv count hc sws d1 d2
    revert h0
    generalize selReset count sws d1 d2 = st
    induction ops generalizing st with
    | nil => intro h; exact h
    | cons op rest ih =>
      intro h
      exact ih _ (selStep_inv hc h op)
  exact ⟨hinv.1, fun e1 e2 => (selSelect_inv hc hinv e1 e2).1⟩

/-- Witness for C6 at a concrete selector trace. -/
theorem C6_selector_range_witness :
    (selSelect (selRun (selReset 2 [] 0 0)
      [SelOp.decr, SelOp.select 1 3, SelOp.incr 1]) 0 0).sel < 2 :=
  (C6_selector_range 2 (by decide) [] 0 0
    [SelOp.decr, SelOp.select 1 3, SelOp.incr 1]).2 0 0

/-! ## Core optimizer evaluation path (`CBiteOpt::optimize`, biteopt.h;
`CBiteOptBase`, biteaux.h)

The candidate-generation machinery (the ~17 generators and their selector
tree) only produces the normalized candidate vector `TmpParams` and its
real-space values `NewValues`; both are taken as step inputs here,
universally quantified.  The objective's return value is modelled as either
a finite rational or NaN. -/

inductive CostV where
  | nan : CostV
  | val (q : ℚ) : CostV
deriving DecidableEq

/-- The rational carried by a finite cost value (NaN never reaches this
after `fixCostNaN`). -/
def CostV.toQ : CostV → ℚ
  | .nan => 0
  | .val q => q

/-- `CBiteOptBase::fixCostNaN` (biteaux.h:2018-2021): `v != v` holds exactly
for NaN; the finite sentinel literal `1e300` is the rational `10^300`. -/
def fixCostNaN : CostV → CostV
  | .nan => .val (10 ^ 300)
  | .val q => .val q

structure OState where
  pop : Pop
  bestCost : ℚ
  bestValues : List ℚ
  stallCount : ℕ

/-- `CBiteOptBase::updateBestCost` (biteaux.h:1992-2009): when `p < 0` the
position is re-derived from the cost comparison (`p = 0` iff
`UpdCost ≤ BestCost`); at position 0 the best pair is overwritten. -/
def updateBestCost (st : OState) (c : ℚ) (vals : List ℚ) (p : ℤ) : OState :=
  if (if p < 0 then (if c ≤ st.bestCost then 0 else p) else p) = 0 then
    { st with bestCost := c, bestValues := vals }
  else st

/-- One `DoInitEvals` step of `CBiteOpt::optimize` (biteopt.h:193-216): the
generated candidate is evaluated, its cost NaN-fixed, inserted with default
arguments, and the best-cost bookkeeping updated with the insertion
position. -/
def initStep (st : OState) (cand vals : List ℚ) (obj : CostV) : OState :=
  let c := (fixCostNaN obj).toQ
  let r := updatePop st.pop c cand 0
  updateBestCost { st with pop := r.1 } c vals (r.2 : ℤ)

/-- Rejection branch of a main step (biteopt.h:357-374): the stall counter
increments and, when the `PopChangeIncrSel` draw `grow` fires and the active
size is below capacity, the population grows. -/
def rejectBranch (st : OState) (pop2 : Pop) (grow : Bool) : OState :=
  { st with
    pop := if grow && decide (pop2.curPopSize < pop2.popSize)
      then incrCurPopSize pop2 else pop2,
    stallCount := st.stallCount + 1 }

/-- Acceptance branch of a main step (biteopt.h:375-412): best-cost
bookkeeping with the insertion position, stall reset, and — when the
`PopChangeDecrSel` draw `shrink` fires and the active size is above half
capacity — a shrink of the active size. -/
def acceptBranch (st : OState) (pop2 : Pop) (c : ℚ) (vals : List ℚ) (p : ℕ)
    (shrink : Bool) : OState :=
  { pop := if shrink && decide (pop2.curPopSize > pop2.popSize / 2)
      then decrCurPopSize pop2 else pop2,
    bestCost := (updateBestCost { st with pop := pop2 } c vals (p : ℤ)).bestCost,
    bestValues := (updateBestCost { st with pop := pop2 } c vals (p : ℤ)).bestValues,
    stallCount := 0 }

/-- The post-generation part of a main `CBiteOpt::optimize` step
(biteopt.h:338-418) with the cost already computed: insertion with tie
threshold 3 (line 355), then the rejection branch when `p > CurPopSize1`
and the acceptance branch otherwise.  The old-population,
parallel-population and push side effects mutate other populations and are
modelled as separate steps on their target. -/
def mainStepC (st : OState) (cand vals : List ℚ) (c : ℚ) (grow shrink : Bool) : OState :=
  let r := updatePop st.pop c cand 3
  if r.2 > r.1.curPopSize - 1 then rejectBranch st r.1 grow
  else acceptBranch st r.1 c vals r.2 shrink

/-- A main evaluation-path step: the cost handed to insertion and
bookkeeping is `fixCostNaN` of the objective's return (biteopt.h:350). -/
def mainStep (st : OState) (cand vals : List ℚ) (obj : CostV)
    (grow shrink : Bool) : OState :=
  mainStepC st cand vals (fixCostNaN obj).toQ grow shrink

/-- A push from a sibling ensemble instance (biteopt.h:399):
`PushOpt->updatePop( LastCosts[ 0 ], TmpParams, true, 3 )` — insertion into
this instance's population without best-cost bookkeeping. -/
def pushStep (st : OState) (c : ℚ) (cand : List ℚ) : OState :=
  { st with pop := (updatePop st.pop c cand 3).1 }

/-- `initCommonVars` (biteaux.h:1925-1950): `BestCost = 1e300`,
`StallCount = 0`, and the population reset to its unfilled state. -/
def initOState (n : ℕ) : OState :=
  { pop := initPop n, bestCost := 10 ^ 300, bestValues := [], stallCount := 0 }

/-- Every record of the updated population is either an old record or the
freshly inserted candidate. -/
theorem updatePop_recs_mem (st : Pop) (c : ℚ) (params : List ℚ) (thr : ℕ)
    (h : PopWF st) :
    ∀ r ∈ (updatePop st c params thr).1.recs, r ∈ st.recs ∨ r = (c, params) := by
  obtain ⟨hpos, hle, hlen, hs⟩ := h
  by_cases hfill : st.curPopPos < st.popSize
  · have hst : (updatePop st c params thr).1 =
        { st with curPopPos := st.curPopPos + 1,
                  recs := st.recs.insertIdx
                    (bsLoop st.ranks c st.curPopPos 0 st.curPopPos) (c, params) } := by
      rw [updatePop, if_pos hfill]
    rw [hst]
    intro r hr
    have hple := (@bsLoop_le st.ranks c st.curPopPos 0
      st.curPopPos (Nat.zero_le _)).2
    rcases (List.mem_insertIdx (by omega)).1 hr with hr' | hr'
    · exact Or.inr hr'
    · exact Or.inl hr'
  · by_cases hrej : c > st.rankAt (st.popSize - 1)
    · have hst : (updatePop st c params thr).1 = st := by
        rw [updatePop, if_neg hfill, if_pos hrej]
      rw [hst]
      exact fun r hr => Or.inl hr
    · have hple := (@bsLoop_le st.ranks c (st.popSize - 1) 0
        (st.popSize - 1) (Nat.zero_le _)).2
      set p := bsLoop st.ranks c (st.popSize - 1) 0 (st.popSize - 1) with hp
      by_cases hdo : (isEqualCost c (st.rankAt p) && decide (p ≠ 0) &&
          decide (p < st.curPopSize * thr / 8) &&
          isParams1FartherThan2 (st.paramsAt p) params (st.paramsAt 0)) = true
      · have hst : (updatePop st c params thr).1 =
            { st with recs := st.recs.set p (c, params) } := by
          rw [updatePop, if_neg hfill, if_neg hrej]
          simp only [← hp, hdo, if_true]
        rw [hst]
        intro r hr
        rcases List.mem_or_eq_of_mem_set hr with hr' | hr'
        · exact Or.inl hr'
        · exact Or.inr hr'
      · have hst : (updatePop st c params thr).1 =
            { st with recs :=
                (st.recs.take (st.popSize - 1)).insertIdx p (c, params) } := by
          rw [updatePop, if_neg hfill, if_neg hrej]
          simp only [← hp, hdo, if_false, Bool.false_eq_true]
        rw [hst]
        intro r hr
        rcases (List.mem_insertIdx (by rw [List.length_take]; omega)).1 hr with hr' | hr'
        · exact Or.inr hr'
        · exact Or.inl (List.mem_of_mem_take hr')

/-- Invariant of an all-NaN run: a well-formed population whose every rank
is the sentinel, with the sentinel as best cost. -/
def NanInv (st : OState) : Prop :=
  PopWF st.pop ∧ st.bestCost = 10 ^ 300 ∧ ∀ r ∈ st.pop.recs, r.1 = 10 ^ 300

theorem updateBestCost_nan {st : OState} (hb : st.bestCost = 10 ^ 300)
    (vals : List ℚ) (p : ℤ) :
    (updateBestCost st (10 ^ 300) vals p).pop = st.pop ∧
    (updateBestCost st (10 ^ 300) vals p).bestCost = 10 ^ 300 ∧
    ((updateBestCost st (10 ^ 300) vals p).bestValues = st.bestValues ∨
      (updateBestCost st (10 ^ 300) vals p).bestValues = vals) := by
  rw [updateBestCost]
  by_cases hcond : (if p < 0 then
      (if (10 : ℚ) ^ 300 ≤ st.bestCost then 0 else p) else p) = 0
  · rw [if_pos hcond]
    exact ⟨rfl, rfl, Or.inr rfl⟩
  · rw [if_neg hcond]
    exact ⟨rfl, hb, Or.inl rfl⟩

theorem initStep_nan {st : OState} (h : NanInv st) (cand vals : List ℚ) :
    NanInv (initStep st cand vals .nan) ∧
    ((initStep st cand vals .nan).bestValues = st.bestValues ∨
      (initStep st cand vals .nan).bestValues = vals) := by
  obtain ⟨hwf, hb, hranks⟩ := h
  have hwf' : PopWF (updatePop st.pop ((10 : ℚ) ^ 300) cand 0).1 :=
    updatePop_WF st.pop _ cand 0 hwf
  have hrk : ∀ r ∈ (updatePop st.pop ((10 : ℚ) ^ 300) cand 0).1.recs,
      r.1 = 10 ^ 300 := by
    intro r hr
    rcases updatePop_recs_mem st.pop _ cand 0 hwf r hr with hr' | rfl
    · exact hranks r hr'
    · rfl
  have hform : initStep st cand vals .nan =
      updateBestCost { st with pop := (updatePop st.pop ((10 : ℚ) ^ 300) cand 0).1 }
        ((10 : ℚ) ^ 300) vals
        ((updatePop st.pop ((10 : ℚ) ^ 300) cand 0).2 : ℤ) := rfl
  obtain ⟨hp2, hb2, hv2⟩ := @updateBestCost_nan
    { st with pop := (updatePop st.pop ((10 : ℚ) ^ 300) cand 0).1 } hb vals
    ((updatePop st.pop ((10 : ℚ) ^ 300) cand 0).2 : ℤ)
  rw [hform]
  refine ⟨⟨?_, hb2, ?_⟩, hv2⟩
  · rw [hp2]
    exact hwf'
  · rw [hp2]
    exact hrk

theorem rejectBranch_nan {st : OState} (h : NanInv st) {pop2 : Pop}
    (hwf2 : PopWF pop2) (hrk : ∀ r ∈ pop2.recs, r.1 = 10 ^ 300) (grow : Bool) :
    NanInv (rejectBranch st pop2 grow) ∧
    (rejectBranch st pop2 grow).bestValues = st.bestValues := by
  obtain ⟨hwf, hb, hranks⟩ := h
  rw [rejectBranch]
  refine ⟨⟨?_, hb, ?_⟩, rfl⟩
  · show PopWF (if (grow && decide (pop2.curPopSize < pop2.popSize)) = true
      then incrCurPopSize pop2 else pop2)
    split
    · exact ⟨hwf2.1, hwf2.2.1, hwf2.2.2.1, hwf2.2.2.2⟩
    · exact hwf2
  · show ∀ r ∈ (if (grow && decide (pop2.curPopSize < pop2.popSize)) = true
      then incrCurPopSize pop2 else pop2).recs, r.1 = (10 : ℚ) ^ 300
    split
    · exact hrk
    · exact hrk

theorem acceptBranch_nan {st : OState} (h : NanInv st) {pop2 : Pop}
    (hwf2 : PopWF pop2) (hrk : ∀ r ∈ pop2.recs, r.1 = 10 ^ 300)
    (vals : List ℚ) (p : ℕ) (shrink : Bool) :
    NanInv (acceptBranch st pop2 (10 ^ 300) vals p shrink) ∧
    ((acceptBranch st pop2 (10 ^ 300) vals p shrink).bestValues = st.bestValues ∨
      (acceptBranch st pop2 (10 ^ 300) vals p shrink).bestValues = vals) := by
  obtain ⟨hwf, hb, hranks⟩ := h
  obtain ⟨hp2, hb2, hv2⟩ := @updateBestCost_nan
    { st with pop := pop2 } hb vals (p : ℤ)
  rw [acceptBranch]
  refine ⟨⟨?_, hb2, ?_⟩, hv2⟩
  · show PopWF (if (shrink && decide (pop2.curPopSize > pop2.popSize / 2)) = true
      then decrCurPopSize pop2 else pop2)
    split
    · exact ⟨hwf2.1, hwf2.2.1, hwf2.2.2.1, hwf2.2.2.2⟩
    · exact hwf2
  · show ∀ r ∈ (if (shrink && decide (pop2.curPopSize > pop2.popSize / 2)) = true
      then decrCurPopSize pop2 else pop2).recs, r.1 = (10 : ℚ) ^ 300
    split
    · exact hrk
    · exact hrk

theorem mainStep_nan {st : OState} (h : NanInv st) (cand vals : List ℚ)
    (grow shrink : Bool) :
    NanInv (mainStep st cand vals .nan grow shrink) ∧
    ((mainStep st cand vals .nan grow shrink).bestValues = st.bestValues ∨
      (mainStep st cand vals .nan grow shrink).bestValues = vals) := by
  have hwf' : PopWF (updatePop st.pop ((10 : ℚ) ^ 300) cand 3).1 :=
    updatePop_WF st.pop _ cand 3 h.1
  have hrk : ∀ r ∈ (updatePop st.pop ((10 : ℚ) ^ 300) cand 3).1.recs,
      r.1 = 10 ^ 300 := by
    intro r hr
    rcases updatePop_recs_mem st.pop _ cand 3 h.1 r hr with hr' | rfl
    · exact h.2.2 r hr'
    · rfl
  have hform : mainStep st cand vals .nan grow shrink =
      (if (updatePop st.pop ((10 : ℚ) ^ 300) cand 3).2 >
          (updatePop st.pop ((10 : ℚ) ^ 300) cand 3).1.curPopSize - 1 then
        rejectBranch st (updatePop st.pop ((10 : ℚ) ^ 300) cand 3).1 grow
       else acceptBranch st (updatePop st.pop ((10 : ℚ) ^ 300) cand 3).1
        ((10 : ℚ) ^ 300) vals (updatePop st.pop ((10 : ℚ) ^ 300) cand 3).2 shrink) := rfl
  rw [hform]
  split
  · obtain ⟨h1, h2⟩ := rejectBranch_nan h hwf' hrk grow
    exact ⟨h1, Or.inl h2⟩
  · exact acceptBranch_nan h hwf' hrk vals _ shrink

/-- Steps of a single-instance run: initial-fill steps and main
evaluation-path steps, each carrying the generated candidate, its real
values, the objective's return and (for main steps) the two
population-size selector draws. -/
inductive RunStep where
  | fill (cand vals : List ℚ) (obj : CostV)
  | main (cand vals : List ℚ) (obj : CostV) (grow shrink : Bool)

def RunStep.objOf : RunStep → CostV
  | .fill _ _ o => o
  | .main _ _ o _ _ => o

def RunStep.valsOf : RunStep → List ℚ
  | .fill _ v _ => v
  | .main _ v _ _ _ => v

def runStepF (st : OState) : RunStep → OState
  | .fill cand vals obj => initStep st cand vals obj
  | .main cand vals obj grow shrink => mainStep st cand vals obj grow shrink

def runSteps (st : OState) (steps : List RunStep) : OState :=
  steps.foldl runStepF st

theorem runSteps_nan {steps : List RunStep}
    (hall : ∀ s ∈ steps, s.objOf = CostV.nan) :
    ∀ (st : OState), NanInv st →
      NanInv (runSteps st steps) ∧
      ((runSteps st steps).bestValues = st.bestValues ∨
        (runSteps st steps).bestValues ∈ steps.map RunStep.valsOf) := by
  induction steps with
  | nil => intro st h; exact ⟨h, Or.inl rfl⟩
  | cons s rest ih =>
    intro st h
    have hs : s.objOf = CostV.nan := hall s (List.mem_cons_self _ _)
    have hstep : NanInv (runStepF st s) ∧
        ((runStepF st s).bestValues = st.bestValues ∨
          (runStepF st s).bestValues = s.valsOf) := by
      cases s with
      | fill cand vals obj =>
        have : obj = CostV.nan := hs
        subst this
        exact initStep_nan h cand vals
      | main cand vals obj grow shrink =>
        have : obj = CostV.nan := hs
        subst this
        exact mainStep_nan h cand vals grow shrink
    obtain ⟨h1, h2⟩ := ih (fun x hx => hall x (List.mem_cons_of_mem _ hx))
      (runStepF st s) hstep.1
    have hrw : runSteps st (s :: rest) = runSteps (runStepF st s) rest := rfl
    rw [hrw]
    refine ⟨h1, ?_⟩
    rcases h2 with h2 | h2
    · rcases hstep.2 with h3 | h3
      · exact Or.inl (h2.trans h3)
      · exact Or.inr (by rw [h2, h3]; simp)
    · exact Or.inr (List.mem_cons_of_mem _ h2)

/-- C4: in the evaluation path the cost handed to population insertion and
best-solution bookkeeping is `fixCostNaN` of the objective's return — the
objective's value when finite and the sentinel `1e300 = 10^300` when NaN,
never NaN itself.  Consequently a run (one first fill evaluation followed by
any fill/main steps) in which the objective returns NaN on every candidate
completes with every stored rank equal to the sentinel, a reported best cost
of exactly `1e300`, and a best vector that was actually evaluated. -/
theorem C4_nan_coercion (n : ℕ) (hn : 1 ≤ n) (cand0 vals0 : List ℚ)
    (steps : List RunStep) (hall : ∀ s ∈ steps, s.objOf = CostV.nan) :
    (∀ q, (fixCostNaN (.val q)).toQ = q) ∧
    (fixCostNaN .nan).toQ = 10 ^ 300 ∧
    (∀ v, fixCostNaN v ≠ .nan) ∧
    (∀ r ∈ (runSteps (initStep (initOState n) cand0 vals0 .nan) steps).pop.recs,
      r.1 = 10 ^ 300) ∧
    (runSteps (initStep (initOState n) cand0 vals0 .nan) steps).bestCost = 10 ^ 300 ∧
    (runSteps (initStep (initOState n) cand0 vals0 .nan) steps).bestValues ∈
      vals0 :: steps.map RunStep.valsOf := by
  have hinit : NanInv (initOState n) :=
    ⟨initPop_WF hn, rfl, fun r hr => by simp [initOState, initPop] at hr⟩
  obtain ⟨h1, _⟩ := initStep_nan hinit cand0 vals0
  obtain ⟨h3, h4⟩ := runSteps_nan hall _ h1
  have hfirst : (initStep (initOState n) cand0 vals0 CostV.nan).bestValues = vals0 := by
    have hp : (updatePop (initOState n).pop (fixCostNaN CostV.nan).toQ cand0 0).2 = 0 := by
      show (updatePop (initPop n) _ cand0 0).2 = 0
      rw [updatePop, if_pos
        (show (initPop n).curPopPos < (initPop n).popSize by
          simpa [initPop] using hn)]
      rfl
    rw [initStep, updateBestCost, hp]
    simp
  refine ⟨fun q => rfl, rfl, fun v => by cases v <;> simp [fixCostNaN],
    h3.2.2, h3.2.1, ?_⟩
  rcases h4 with h4 | h4
  · rw [h4, hfirst]
    exact List.mem_cons_self _ _
  · exact List.mem_cons_of_mem _ h4

/-- Witness for C4 at a single-record all-NaN run. -/
theorem C4_nan_coercion_witness :
    (runSteps (initStep (initOState 1) [0] [5] CostV.nan) []).bestCost = 10 ^ 300 :=
  (C4_nan_coercion 1 (by decide) [0] [5] []
    (fun s hs => absurd hs (List.not_mem_nil s))).2.2.2.2.1

/-! ## Ensemble of depth M = 1 (`CBiteOptDeep`, biteopt.h:1622-1853)

The core optimizer is abstracted as a step function
`step : σ → Option σ → ρ → σ × ρ × ℕ` taking its own state, an optional
push-target state (`NULL`/`none` when no migration target is supplied) and
the PRNG state, and returning the updated state, the updated PRNG state and
the stall count.  The claim under verification concerns the `OptCount == 1`
early-return branch of `CBiteOptDeep::optimize` (biteopt.h:1777-1782);
multi-instance configurations are outside this model. -/

structure DeepSt (σ : Type) where
  opts : List σ
  bestIdx : ℕ
  curIdx : ℕ
  pushIdx : ℕ
  lastIdx : ℕ
  stall : ℕ

/-- `CBiteOptDeep::init` for `OptCount = 1` (biteopt.h:1733-1764): all role
pointers denote instance 0 (`PushOpt = CurOpt` in the `OptCount == 1` arm),
`StallCount = 0`. -/
def deepInit1 {σ : Type} (s : σ) : DeepSt σ :=
  ⟨[s], 0, 0, 0, 0, 0⟩

/-- `CBiteOptDeep::optimize`, `OptCount == 1` branch (biteopt.h:1777-1782):
`StallCount = Opts[0]->optimize(rnd)` — one step of the single instance
with the `PushOpt` argument left at its default `NULL` (`none`), so no push
target is given a solution; the stall count is stored and returned, and the
role pointers are untouched. -/
def deepOptimize {σ ρ : Type} (step : σ → Option σ → ρ → σ × ρ × ℕ)
    (st : DeepSt σ) (rng : ρ) : DeepSt σ × ρ × ℕ :=
  match st.opts with
  | [s] =>
    let r := step s none rng
    ({ st with opts := [r.1], stall := r.2.2 }, r.2.1, r.2.2)
  | _ => (st, rng, st.stall)

def deepRun {σ ρ : Type} (step : σ → Option σ → ρ → σ × ρ × ℕ) :
    ℕ → DeepSt σ → ρ → DeepSt σ × ρ
  | 0, st, rng => (st, rng)
  | n + 1, st, rng => deepRun step n (deepOptimize step st rng).1 (deepOptimize step st rng).2.1

/-- Modelled from the spec: "With M=1 this degenerates to stepping a single
instance with no migration" — a plain single optimizer step with no push
target. -/
def plainStep {σ ρ : Type} (step : σ → Option σ → ρ → σ × ρ × ℕ)
    (s : σ) (rng : ρ) : σ × ρ × ℕ :=
  step s none rng

def plainRun {σ ρ : Type} (step : σ → Option σ → ρ → σ × ρ × ℕ) :
    ℕ → σ × ρ × ℕ → σ × ρ × ℕ
  | 0, t => t
  | n + 1, t => plainRun step n (plainStep step t.1 t.2.1)

theorem deepRun_plain {σ ρ : Type} (step : σ → Option σ → ρ → σ × ρ × ℕ) :
    ∀ (n : ℕ) (s : σ) (rng : ρ) (k : ℕ),
      (deepRun step n ⟨[s], 0, 0, 0, 0, k⟩ rng).1 =
        ⟨[(plainRun step n (s, rng, k)).1], 0, 0, 0, 0,
          (plainRun step n (s, rng, k)).2.2⟩ ∧
      (deepRun step n ⟨[s], 0, 0, 0, 0, k⟩ rng).2 =
        (plainRun step n (s, rng, k)).2.1 := by
  intro n
  induction n with
  | zero => intro s rng k; exact ⟨rfl, rfl⟩
  | succ m ih =>
    intro s rng k
    have hform : deepOptimize step (⟨[s], 0, 0, 0, 0, k⟩ : DeepSt σ) rng =
        (⟨[(step s none rng).1], 0, 0, 0, 0, (step s none rng).2.2⟩,
          (step s none rng).2.1, (step s none rng).2.2) := rfl
    have hd : deepRun step (m + 1) (⟨[s], 0, 0, 0, 0, k⟩ : DeepSt σ) rng =
        deepRun step m ⟨[(step s none rng).1], 0, 0, 0, 0, (step s none rng).2.2⟩
          (step s none rng).2.1 := by
      rw [deepRun, hform]
    have hs : plainRun step (m + 1) (s, rng, k) =
        plainRun step m ((step s none rng).1, (step s none rng).2.1,
          (step s none rng).2.2) := rfl
    rw [hd, hs]
    exact ih (step s none rng).1 (step s none rng).2.1 (step s none rng).2.2

/-- C8: for ensemble depth `M = 1`, each `optimize` call of the ensemble
performs exactly one step of its single core-optimizer instance with no
push target supplied (no migration), returning that step's stall count; and
over any number of calls the ensemble's state evolution (instance state,
PRNG state, stored stall count, role pointers) is identical to stepping a
plain single optimizer directly. -/
theorem C8_deep1_plain_equiv {σ ρ : Type} (step : σ → Option σ → ρ → σ × ρ × ℕ)
    (s0 : σ) (rng0 : ρ) (n : ℕ) :
    (deepOptimize step (deepInit1 s0) rng0 =
      (⟨[(plainStep step s0 rng0).1], 0, 0, 0, 0, (plainStep step s0 rng0).2.2⟩,
        (plainStep step s0 rng0).2.1, (plainStep step s0 rng0).2.2)) ∧
    (deepRun step n (deepInit1 s0) rng0).1 =
      ⟨[(plainRun step n (s0, rng0, 0)).1], 0, 0, 0, 0,
        (plainRun step n (s0, rng0, 0)).2.2⟩ ∧
    (deepRun step n (deepInit1 s0) rng0).2 =
      (plainRun step n (s0, rng0, 0)).2.1 := by
  obtain ⟨h1, h2⟩ := deepRun_plain step n s0 rng0 0
  exact ⟨rfl, h1, h2⟩

/-! ## Best-cost monotonicity (C10)

Instance level: the states a core optimizer moves through are driven by
fill steps, main evaluation steps (with possible rejection and
population-size changes) and sibling pushes; the costs handed over are
already NaN-fixed rationals. -/

/-- The `DoInitEvals` step with the cost already computed. -/
def initStepC (st : OState) (cand vals : List ℚ) (c : ℚ) : OState :=
  updateBestCost { st with pop := (updatePop st.pop c cand 0).1 } c vals
    ((updatePop st.pop c cand 0).2 : ℤ)

inductive Step10 where
  | fillS (cand vals : List ℚ) (c : ℚ)
  | ownS (cand vals : List ℚ) (c : ℚ) (grow shrink : Bool)
  | pushS (c : ℚ) (cand : List ℚ)

def step10 (st : OState) : Step10 → OState
  | .fillS cand vals c => initStepC st cand vals c
  | .ownS cand vals c grow shrink => mainStepC st cand vals c grow shrink
  | .pushS c cand => pushStep st c cand

def run10 (st : OState) (steps : List Step10) : OState :=
  steps.foldl step10 st

theorem getD_zero_insertIdx (l : List ℚ) (c : ℚ) (p : ℕ) :
    (l.insertIdx p c).getD 0 0 = if p = 0 then c else l.getD 0 0 := by
  match p, l with
  | 0, l => simp
  | n + 1, [] => simp
  | n + 1, a :: t => simp

theorem getD_zero_set (l : List ℚ) (c : ℚ) {p : ℕ} (hp : p ≠ 0) :
    (l.set p c).getD 0 0 = l.getD 0 0 := by
  match p, l with
  | 0, l => exact absurd rfl hp
  | n + 1, [] => simp
  | n + 1, a :: t => simp

theorem getD_zero_take (l : List ℚ) {n : ℕ} (hn : 0 < n) :
    (l.take n).getD 0 0 = l.getD 0 0 := by
  match n, l with
  | 0, l => omega
  | n + 1, [] => simp
  | n + 1, a :: t => simp

/-- `updatePop` on a nonempty well-formed population: the population stays
nonempty, the best stored rank never increases, and an insertion reported
at position 0 had a cost no larger than the previous best stored rank and
becomes the new best stored rank. -/
theorem updatePop_rank0 (st : Pop) (c : ℚ) (params : List ℚ) (thr : ℕ)
    (h : PopWF st) (hne : st.recs ≠ []) :
    (updatePop st c params thr).1.recs ≠ [] ∧
    (updatePop st c params thr).1.rankAt 0 ≤ st.rankAt 0 ∧
    ((updatePop st c params thr).2 = 0 →
      c ≤ st.rankAt 0 ∧ (updatePop st c params thr).1.rankAt 0 = c) := by
  obtain ⟨hpos, hle, hlen, hs⟩ := h
  have hlne : 1 ≤ st.recs.length := by
    cases hrecs : st.recs with
    | nil => exact absurd hrecs hne
    | cons a t => simp
  have hrlen : st.ranks.length = st.recs.length := ranks_length st
  by_cases hfill : st.curPopPos < st.popSize
  · have hst : updatePop st c params thr =
        ({ st with curPopPos := st.curPopPos + 1,
                   recs := st.recs.insertIdx
                     (bsLoop st.ranks c st.curPopPos 0 st.curPopPos) (c, params) },
          bsLoop st.ranks c st.curPopPos 0 st.curPopPos) := by
      rw [updatePop, if_pos hfill]
    have hspec := bsLoop_spec (c := c) hs st.curPopPos 0 st.curPopPos
      (Nat.zero_le _) (by omega) (by omega)
    have hple := (@bsLoop_le st.ranks c st.curPopPos 0
      st.curPopPos (Nat.zero_le _)).2
    set p := bsLoop st.ranks c st.curPopPos 0 st.curPopPos with hp
    have h1 : (updatePop st c params thr).1.recs = st.recs.insertIdx p (c, params) := by
      rw [hst]
    have h2 : (updatePop st c params thr).2 = p := by rw [hst]
    have hrk : (updatePop st c params thr).1.rankAt 0 =
        (st.ranks.insertIdx p c).getD 0 0 := by
      show ((updatePop st c params thr).1.recs.map Prod.fst).getD 0 0 = _
      rw [h1, map_insertIdx]
      rfl
    have hc0 : p = 0 → c ≤ st.rankAt 0 := by
      intro hp0
      have := hspec.2 (by omega)
      rwa [hp0] at this
    refine ⟨?_, ?_, ?_⟩
    · rw [h1]
      intro hcon
      have := congrArg List.length hcon
      rw [List.length_insertIdx _ _ (by omega)] at this
      simp at this
    · rw [hrk, getD_zero_insertIdx]
      split
      · next hp0 => exact hc0 hp0
      · exact le_refl _
    · rw [h2]
      intro hret
      refine ⟨hc0 hret, ?_⟩
      rw [hrk, getD_zero_insertIdx, if_pos hret]
  · have hcp0 : st.curPopPos = st.popSize := by omega
    have hlenp : st.recs.length = st.popSize := by omega
    by_cases hrej : c > st.rankAt (st.popSize - 1)
    · have hst : updatePop st c params thr = (st, st.popSize) := by
        rw [updatePop, if_neg hfill, if_pos hrej]
      rw [hst]
      exact ⟨hne, le_refl _, fun hret => absurd hret (by omega)⟩
    · have hcle' : c ≤ st.rankAt (st.popSize - 1) := le_of_not_lt hrej
      have hspec := bsLoop_spec (c := c) hs (st.popSize - 1) 0 (st.popSize - 1)
        (Nat.zero_le _) (by omega) (by omega)
      have hple := (@bsLoop_le st.ranks c (st.popSize - 1) 0
        (st.popSize - 1) (Nat.zero_le _)).2
      set p := bsLoop st.ranks c (st.popSize - 1) 0 (st.popSize - 1) with hp
      have hc0 : p = 0 → c ≤ st.rankAt 0 := by
        intro hp0
        rcases Nat.eq_zero_or_pos (st.popSize - 1) with hri | hri
        · rw [show (0 : ℕ) = st.popSize - 1 by omega]
          exact hcle'
        · have := hspec.2 (by omega)
          rwa [hp0] at this
      by_cases hdo : (isEqualCost c (st.rankAt p) && decide (p ≠ 0) &&
          decide (p < st.curPopSize * thr / 8) &&
          isParams1FartherThan2 (st.paramsAt p) params (st.paramsAt 0)) = true
      · have hisEq : isEqualCost c (st.rankAt p) = true := by
          simp only [Bool.and_eq_true] at hdo
          exact hdo.1.1.1
        have hpne : p ≠ 0 := by
          simp only [Bool.and_eq_true, decide_eq_true_eq] at hdo
          exact hdo.1.1.2
        have hdo' : (true && decide (p ≠ 0) && decide (p < st.curPopSize * thr / 8) &&
            isParams1FartherThan2 (st.paramsAt p) params (st.paramsAt 0)) = true := by
          rwa [hisEq] at hdo
        have hst : updatePop st c params thr =
            ({ st with recs := st.recs.set p (c, params) }, st.popSize) := by
          rw [updatePop, if_neg hfill, if_neg hrej]
          simp only [← hp, hisEq, hdo', if_true]
        have h1 : (updatePop st c params thr).1.recs = st.recs.set p (c, params) := by
          rw [hst]
        have h2 : (updatePop st c params thr).2 = st.popSize := by rw [hst]
        have hrk : (updatePop st c params thr).1.rankAt 0 =
            (st.ranks.set p c).getD 0 0 := by
          show ((updatePop st c params thr).1.recs.map Prod.fst).getD 0 0 = _
          rw [h1, List.map_set]
          rfl
        refine ⟨?_, ?_, ?_⟩
        · rw [h1]
          intro hcon
          have := congrArg List.length hcon
          rw [List.length_set, List.length_nil] at this
          omega
        · rw [hrk, getD_zero_set _ _ hpne]
          exact le_refl _
        · rw [h2]
          intro hret
          exact absurd hret (by omega)
      · have hst : updatePop st c params thr =
            ({ st with recs :=
                 (st.recs.take (st.popSize - 1)).insertIdx p (c, params) },
              if isEqualCost c (st.rankAt p) then st.popSize else p) := by
          rw [updatePop, if_neg hfill, if_neg hrej]
          simp only [← hp, hdo, if_false, Bool.false_eq_true]
        have h1 : (updatePop st c params thr).1.recs =
            (st.recs.take (st.popSize - 1)).insertIdx p (c, params) := by
          rw [hst]
        have h2 : (updatePop st c params thr).2 =
            if isEqualCost c (st.rankAt p) then st.popSize else p := by
          rw [hst]
        have hrk : (updatePop st c params thr).1.rankAt 0 =
            ((st.ranks.take (st.popSize - 1)).insertIdx p c).getD 0 0 := by
          show ((updatePop st c params thr).1.recs.map Prod.fst).getD 0 0 = _
          rw [h1, map_insertIdx, List.map_take]
          rfl
        refine ⟨?_, ?_, ?_⟩
        · rw [h1]
          intro hcon
          have := congrArg List.length hcon
          rw [List.length_insertIdx _ _ (by rw [List.length_take]; omega),
            List.length_nil] at this
          omega
        · rw [hrk, getD_zero_insertIdx]
          split
          · next hp0 => exact hc0 hp0
          · next hp0 =>
            have hri : 0 < st.popSize - 1 := by omega
            rw [getD_zero_take _ hri]
            exact le_refl _
        · rw [h2]
          intro hret
          have hiE : isEqualCost c (st.rankAt p) = false := by
            by_contra hcon
            rw [Bool.not_eq_false] at hcon
            rw [if_pos hcon] at hret
            omega
          rw [if_neg (by simp [hiE])] at hret
          refine ⟨hc0 hret, ?_⟩
          rw [hrk, getD_zero_insertIdx, if_pos hret]

/-- Invariant tying the best-cost bookkeeping to the population: the stored
best rank never exceeds the reported best cost (established by the first
fill evaluation). -/
def BestInv (st : OState) : Prop :=
  PopWF st.pop ∧ st.pop.recs ≠ [] ∧ st.pop.rankAt 0 ≤ st.bestCost

theorem updateBestCost_comp (st : OState) (c : ℚ) (vals : List ℚ) (p : ℕ) :
    (updateBestCost st c vals (p : ℤ)).pop = st.pop ∧
    (p = 0 → (updateBestCost st c vals (p : ℤ)).bestCost = c) ∧
    (p ≠ 0 → updateBestCost st c vals (p : ℤ) = st) := by
  have hnneg : ¬ ((p : ℤ) < 0) := by omega
  rw [updateBestCost, if_neg hnneg]
  by_cases hp : p = 0
  · subst hp
    rw [if_pos (show ((0 : ℕ) : ℤ) = 0 from Nat.cast_zero)]
    exact ⟨rfl, fun _ => rfl, fun hcon => absurd rfl hcon⟩
  · rw [if_neg (by exact_mod_cast hp)]
    exact ⟨rfl, fun hcon => absurd hcon hp, fun _ => rfl⟩

theorem initStepC_mono (st : OState) (cand vals : List ℚ) (c : ℚ)
    (h : BestInv st) :
    BestInv (initStepC st cand vals c) ∧
    (initStepC st cand vals c).bestCost ≤ st.bestCost := by
  obtain ⟨hwf, hne, hr0⟩ := h
  obtain ⟨hne', hmono, hret⟩ := updatePop_rank0 st.pop c cand 0 hwf hne
  have hwf' := updatePop_WF st.pop c cand 0 hwf
  obtain ⟨hcpop, hc0, hcne⟩ := updateBestCost_comp
    { st with pop := (updatePop st.pop c cand 0).1 } c vals
    (updatePop st.pop c cand 0).2
  rw [initStepC]
  by_cases hp : (updatePop st.pop c cand 0).2 = 0
  · obtain ⟨hcle, hrk⟩ := hret hp
    refine ⟨⟨by rw [hcpop]; exact hwf', by rw [hcpop]; exact hne', ?_⟩, ?_⟩
    · show (updateBestCost _ c vals _).pop.rankAt 0 ≤ _
      rw [hcpop, hc0 hp, hrk]
    · rw [hc0 hp]
      exact le_trans hcle hr0
  · rw [hcne hp]
    exact ⟨⟨hwf', hne', le_trans hmono hr0⟩, le_refl _⟩

theorem mainStepC_mono (st : OState) (cand vals : List ℚ) (c : ℚ)
    (grow shrink : Bool) (h : BestInv st) :
    BestInv (mainStepC st cand vals c grow shrink) ∧
    (mainStepC st cand vals c grow shrink).bestCost ≤ st.bestCost := by
  obtain ⟨hwf, hne, hr0⟩ := h
  obtain ⟨hne', hmono, hret⟩ := updatePop_rank0 st.pop c cand 3 hwf hne
  have hwf' := updatePop_WF st.pop c cand 3 hwf
  have hform : mainStepC st cand vals c grow shrink =
      (if (updatePop st.pop c cand 3).2 >
          (updatePop st.pop c cand 3).1.curPopSize - 1 then
        rejectBranch st (updatePop st.pop c cand 3).1 grow
       else acceptBranch st (updatePop st.pop c cand 3).1 c vals
        (updatePop st.pop c cand 3).2 shrink) := rfl
  rw [hform]
  split
  · -- rejection
    rw [rejectBranch]
    refine ⟨⟨?_, ?_, ?_⟩, le_refl _⟩
    · show PopWF (if _ = true then incrCurPopSize _ else _)
      split
      · exact ⟨hwf'.1, hwf'.2.1, hwf'.2.2.1, hwf'.2.2.2⟩
      · exact hwf'
    · show (if _ = true then incrCurPopSize _ else _).recs ≠ []
      split
      · exact hne'
      · exact hne'
    · show (if _ = true then incrCurPopSize _ else _).rankAt 0 ≤ st.bestCost
      split
      · exact le_trans hmono hr0
      · exact le_trans hmono hr0
  · -- acceptance
    rw [acceptBranch]
    obtain ⟨hcpop, hc0, hcne⟩ := updateBestCost_comp
      { st with pop := (updatePop st.pop c cand 3).1 } c vals
      (updatePop st.pop c cand 3).2
    by_cases hp : (updatePop st.pop c cand 3).2 = 0
    · obtain ⟨hcle, hrk⟩ := hret hp
      refine ⟨⟨?_, ?_, ?_⟩, ?_⟩
      · show PopWF (if _ = true then decrCurPopSize _ else _)
        split
        · exact ⟨hwf'.1, hwf'.2.1, hwf'.2.2.1, hwf'.2.2.2⟩
        · exact hwf'
      · show (if _ = true then decrCurPopSize _ else _).recs ≠ []
        split
        · exact hne'
        · exact hne'
      · show (if _ = true then decrCurPopSize _ else _).rankAt 0 ≤
          (updateBestCost _ c vals _).bestCost
        rw [hc0 hp]
        split
        · show (updatePop st.pop c cand 3).1.rankAt 0 ≤ c
          rw [hrk]
        · rw [hrk]
      · show (updateBestCost _ c vals _).bestCost ≤ st.bestCost
        rw [hc0 hp]
        exact le_trans hcle hr0
    · refine ⟨⟨?_, ?_, ?_⟩, ?_⟩
      · show PopWF (if _ = true then decrCurPopSize _ else _)
        split
        · exact ⟨hwf'.1, hwf'.2.1, hwf'.2.2.1, hwf'.2.2.2⟩
        · exact hwf'
      · show (if _ = true then decrCurPopSize _ else _).recs ≠ []
        split
        · exact hne'
        · exact hne'
      · show (if _ = true then decrCurPopSize _ else _).rankAt 0 ≤
          (updateBestCost _ c vals _).bestCost
        rw [hcne hp]
        split
        · show (updatePop st.pop c cand 3).1.rankAt 0 ≤ st.bestCost
          exact le_trans hmono hr0
        · exact le_trans hmono hr0
      · show (updateBestCost _ c vals _).bestCost ≤ st.bestCost
        rw [hcne hp]

theorem pushStep_mono (st : OState) (c : ℚ) (cand : List ℚ) (h : BestInv st) :
    BestInv (pushStep st c cand) ∧ (pushStep st c cand).bestCost ≤ st.bestCost := by
  obtain ⟨hwf, hne, hr0⟩ := h
  obtain ⟨hne', hmono, _⟩ := updatePop_rank0 st.pop c cand 3 hwf hne
  exact ⟨⟨updatePop_WF st.pop c cand 3 hwf, hne', le_trans hmono hr0⟩, le_refl _⟩

theorem step10_mono (st : OState) (s : Step10) (h : BestInv st) :
    BestInv (step10 st s) ∧ (step10 st s).bestCost ≤ st.bestCost := by
  cases s with
  | fillS cand vals c => exact initStepC_mono st cand vals c h
  | ownS cand vals c grow shrink => exact mainStepC_mono st cand vals c grow shrink h
  | pushS c cand => exact pushStep_mono st c cand h

theorem run10_mono : ∀ (steps : List Step10) (st : OState), BestInv st →
    BestInv (run10 st steps) ∧ (run10 st steps).bestCost ≤ st.bestCost := by
  intro steps
  induction steps with
  | nil => intro st h; exact ⟨h, le_refl _⟩
  | cons s rest ih =>
    intro st h
    obtain ⟨h1, h2⟩ := step10_mono st s h
    obtain ⟨h3, h4⟩ := ih (step10 st s) h1
    exact ⟨h3, le_trans h4 h2⟩

/-- The first fill evaluation establishes the invariant: the single stored
record's rank equals the reported best cost. -/
theorem firstFill_BestInv (n : ℕ) (hn : 1 ≤ n) (cand vals : List ℚ) (c : ℚ) :
    BestInv (step10 (initOState n) (.fillS cand vals c)) := by
  have hpop : updatePop (initPop n) c cand 0 =
      ({ initPop n with curPopPos := 1, recs := [(c, cand)] }, 0) := by
    rw [updatePop, if_pos
      (show (initPop n).curPopPos < (initPop n).popSize by
        simpa [initPop] using hn)]
    rfl
  have hform : step10 (initOState n) (.fillS cand vals c) =
      updateBestCost { initOState n with pop := (updatePop (initPop n) c cand 0).1 }
        c vals ((updatePop (initPop n) c cand 0).2 : ℤ) := rfl
  rw [hform, hpop, updateBestCost, if_pos (by simp)]
  refine ⟨⟨by simpa [initPop] using hn, by simpa [initPop] using hn, rfl, ?_⟩,
    by simp, le_refl _⟩
  show (List.map Prod.fst [(c, cand)]).Sorted (· ≤ ·)
  simp

/-- The `BestOpt` re-pointing rule of `CBiteOptDeep::optimize`
(biteopt.h:1787-1790), abstracted over the per-instance best-cost traces:
`costs t i` is instance `i`'s reported best cost after `t` ensemble steps
and `cur t` is the instance stepped (with a possible push into another) at
step `t+1`; `BestOpt` moves to the stepped instance when its best is no
worse. -/
def bestIdxSeq (costs : ℕ → ℕ → ℚ) (cur : ℕ → ℕ) : ℕ → ℕ
  | 0 => 0
  | t + 1 => if costs (t + 1) (cur t) ≤ costs (t + 1) (bestIdxSeq costs cur t)
      then cur t else bestIdxSeq costs cur t

/-- The driver's best-of-attempts accumulation (biteopt.h:1967-1971):
`k == 0` forces the first assignment, later attempts overwrite on `<=`. -/
def driverBest : List ℚ → ℚ
  | [] => 0
  | c :: rest => rest.foldl (fun m x => if x ≤ m then x else m) c

theorem driverFold_spec : ∀ (rest : List ℚ) (m : ℚ),
    rest.foldl (fun m x => if x ≤ m then x else m) m ≤ m ∧
    (∀ x ∈ rest, rest.foldl (fun m x => if x ≤ m then x else m) m ≤ x) ∧
    (rest.foldl (fun m x => if x ≤ m then x else m) m = m ∨
      rest.foldl (fun m x => if x ≤ m then x else m) m ∈ rest) := by
  intro rest
  induction rest with
  | nil => intro m; exact ⟨le_refl _, fun x hx => absurd hx (List.not_mem_nil x), Or.inl rfl⟩
  | cons x xs ih =>
    intro m
    rw [List.foldl_cons]
    obtain ⟨ih1, ih2, ih3⟩ := ih (if x ≤ m then x else m)
    have hm : (if x ≤ m then x else m) ≤ m := by
      split
      · next hxm => exact hxm
      · exact le_refl _
    have hx : (if x ≤ m then x else m) ≤ x := by
      split
      · exact le_refl _
      · next hxm => exact le_of_lt (lt_of_not_le hxm)
    refine ⟨le_trans ih1 hm, fun y hy => ?_, ?_⟩
    · rcases List.mem_cons.1 hy with rfl | hy'
      · exact le_trans ih1 hx
      · exact ih2 y hy'
    · rcases ih3 with h3 | h3
      · rw [h3]
        split
        · next => exact Or.inr (List.mem_cons_self _ _)
        · exact Or.inl rfl
      · exact Or.inr (List.mem_cons_of_mem _ h3)

/-- C10: best costs never increase.  (i) Core instance: starting from the
state after the first fill evaluation of a run, the reported best cost
after any further steps — fill or main evaluation steps with arbitrary
costs, including rejected candidates and population-size changes, and
sibling pushes into this instance — never exceeds its value at any earlier
point of the trace.  (ii) Ensemble: with every instance's best-cost trace
non-increasing (the instance either performs the step, receives a push
which does not touch its best pair, or is untouched), the best cost
reported through the `BestOpt` pointer is non-increasing.  (iii) Driver:
the returned best-of-attempts cost is the minimum over the attempts. -/
theorem C10_best_monotone :
    (∀ (n : ℕ), 1 ≤ n → ∀ (cand vals : List ℚ) (c : ℚ)
      (steps1 steps2 : List Step10),
      (run10 (run10 (step10 (initOState n) (.fillS cand vals c)) steps1)
        steps2).bestCost ≤
        (run10 (step10 (initOState n) (.fillS cand vals c)) steps1).bestCost) ∧
    (∀ (costs : ℕ → ℕ → ℚ) (cur : ℕ → ℕ),
      (∀ t i, costs (t + 1) i ≤ costs t i) →
      ∀ t, costs (t + 1) (bestIdxSeq costs cur (t + 1)) ≤
        costs t (bestIdxSeq costs cur t)) ∧
    (∀ (c0 : ℚ) (rest : List ℚ),
      (∀ x ∈ c0 :: rest, driverBest (c0 :: rest) ≤ x) ∧
      driverBest (c0 :: rest) ∈ c0 :: rest) := by
  refine ⟨?_, ?_, ?_⟩
  · intro n hn cand vals c steps1 steps2
    have h0 := firstFill_BestInv n hn cand vals c
    obtain ⟨h1, _⟩ := run10_mono steps1 _ h0
    exact (run10_mono steps2 _ h1).2
  · intro costs cur hmono t
    rw [show bestIdxSeq costs cur (t + 1) =
      (if costs (t + 1) (cur t) ≤ costs (t + 1) (bestIdxSeq costs cur t)
        then cur t else bestIdxSeq costs cur t) from rfl]
    split
    · next hsw => exact le_trans hsw (hmono t _)
    · exact hmono t _
  · intro c0 rest
    obtain ⟨h1, h2, h3⟩ := driverFold_spec rest c0
    refine ⟨fun x hx => ?_, ?_⟩
    · rcases List.mem_cons.1 hx with rfl | hx'
      · exact h1
      · exact h2 x hx'
    · rcases h3 with h3 | h3
      · rw [show driverBest (c0 :: rest) =
          rest.foldl (fun m x => if x ≤ m then x else m) c0 from rfl, h3]
        exact List.mem_cons_self _ _
      · exact List.mem_cons_of_mem _ (by
          rw [show driverBest (c0 :: rest) =
            rest.foldl (fun m x => if x ≤ m then x else m) c0 from rfl]
          exact h3)

/-- Witness for C10 at a concrete one-dimensional trace. -/
theorem C10_best_monotone_witness :
    (run10 (run10 (step10 (initOState 1) (.fillS [0] [5] 7)) [])
      [Step10.pushS 3 [0]]).bestCost ≤
      (run10 (step10 (initOState 1) (.fillS [0] [5] 7)) []).bestCost :=
  C10_best_monotone.1 1 (by decide) [0] [5] 7 [] [Step10.pushS 3 [0]]

end BiteOpt
